import Mathlib

/-!
# Verification of the sfepy distributed DOF-numbering subsystem

Shallow embedding of `sfepy/parallel/parallel.py`: facet interface
detection (`get_inter_facets`), task DOF-map construction
(`create_task_dof_maps`), the point-to-point distribution protocol of
`distribute_field_dofs`, equation expansion (`expand_dofs`) and essential
boundary condition enforcement on CSR matrices (`apply_ebc_to_matrix`).

Machine arrays are modelled as Lean lists, numpy `uint32`/`int32` ids as
`Nat` (the ids involved are mesh/dof indices, far from overflow), float
matrix data as `ℚ` (the code only writes the exact constants `0.0` and
`1.0` into it), Python dicts as insertion-ordered association lists, and
`assert_` failures / Python exceptions as `Option.none`.
-/

namespace Sfepy

/-! ## Generic list helpers mirroring numpy primitives -/

/-- Insert a number into a sorted list (ascending), keeping it sorted. -/
def insSorted (a : Nat) : List Nat → List Nat
  | [] => [a]
  | b :: l => if a ≤ b then a :: b :: l else b :: insSorted a l

/-- Insertion sort on naturals, ascending. -/
def sortNat (l : List Nat) : List Nat := l.foldr insSorted []

/-- `nm.unique`: sorted list of the distinct elements of `l`. -/
def uniq (l : List Nat) : List Nat := (sortNat l).dedup

/-- `nm.setdiff1d a b`: sorted distinct elements of `a` not in `b`. -/
def setdiff (a b : List Nat) : List Nat := uniq (a.filter (fun x => !(b.contains x)))

/-- `nm.arange s (s+n)`: the list `[s, s+1, ..., s+n-1]`. -/
def arange (s n : Nat) : List Nat := (List.range n).map (fun j => s + j)

/-! ## `expand_dofs` (parallel.py lines 262-271)

`edofs[idof::n_components] = n_components * dofs + idof` means that
position `j` of the result holds `n_components * dofs[j / n_components]
+ j % n_components`. -/

/-- Shallow embedding of `expand_dofs(dofs, n_components)`. -/
def expand_dofs (dofs : List Nat) (n_components : Nat) : List Nat :=
  (List.range (n_components * dofs.length)).map
    (fun j => n_components * dofs.getD (j / n_components) 0 + j % n_components)

/-! ## CSR matrices and `apply_ebc_to_matrix` (parallel.py lines 293-306) -/

/-- Compressed-row sparse matrix: `indptr` row offsets, `indices` column
ids, `data` stored values. -/
structure CSRMatrix where
  indptr : List Nat
  indices : List Nat
  data : List ℚ
deriving Repr, DecidableEq

/-- One constrained row `ir`: for every stored position of row `ir`, the
value becomes `1` on the diagonal column and `0` elsewhere
(`data[ic] = 1.0 if cols[ic] == ir else 0.0`). -/
def ebcRow (indptr : List Nat) (indices : List Nat) (data : List ℚ) (ir : Nat) : List ℚ :=
  (arange (indptr.getD ir 0) (indptr.getD (ir + 1) 0 - indptr.getD ir 0)).foldl
    (fun d ic => d.set ic (if indices.getD ic 0 = ir then 1 else 0)) data

/-- Shallow embedding of `apply_ebc_to_matrix(mtx, eq_map)`; `eq_ebc` is
the list of constrained rows `eq_map.eq_ebc`. -/
def apply_ebc_to_matrix (mtx : CSRMatrix) (eq_ebc : List Nat) : CSRMatrix :=
  { mtx with data := eq_ebc.foldl (fun d ir => ebcRow mtx.indptr mtx.indices d ir) mtx.data }

/-! ## Python dicts as insertion-ordered association lists

`d.setdefault(k, v)` returns the existing entry or inserts `(k, v)` at
the end; `ordered_iteritems` (from `sfepy.base.base`, not under `src/`)
iterates items sorted by key. Modelled from the spec: "Processes tasks in
increasing numeric id order". -/

/-- Insert a key-value pair into a list sorted by key, keeping it sorted. -/
def insKey {α : Type} (p : Nat × α) : List (Nat × α) → List (Nat × α)
  | [] => [p]
  | q :: l => if p.1 ≤ q.1 then p :: q :: l else q :: insKey p l

/-- `ordered_iteritems d`: the items of `d` sorted by key (insertion sort). -/
def ordered_items {α : Type} (m : List (Nat × α)) : List (Nat × α) := m.foldr insKey []

/-- Keys of an association list. -/
def alKeys {α : Type} (m : List (Nat × α)) : List Nat := m.map Prod.fst

/-- `d.setdefault(k, dflt)`, returning the updated dict. -/
def alSetdefault {α : Type} (m : List (Nat × α)) (k : Nat) (dflt : α) : List (Nat × α) :=
  if (m.lookup k).isSome then m else m ++ [(k, dflt)]

/-- `d[k]` with a default for an absent key. -/
def alGetD {α : Type} (m : List (Nat × α)) (k : Nat) (dflt : α) : α :=
  (m.lookup k).getD dflt

/-- In-place mutation of the entry at key `k` (Python list aliasing). -/
def alUpdate {α : Type} (m : List (Nat × α)) (k : Nat) (f : α → α) : List (Nat × α) :=
  m.map (fun p => if p.1 = k then (p.1, f p.2) else p)

/-- `d.setdefault(k1, {}).setdefault(k2, []).append(f)` on a nested dict. -/
def dictAppend (m : List (Nat × List (Nat × List Nat))) (k1 k2 f : Nat) :
    List (Nat × List (Nat × List Nat)) :=
  if (m.lookup k1).isSome then
    alUpdate m k1 (fun n =>
      if (n.lookup k2).isSome then alUpdate n k2 (fun fs => fs ++ [f])
      else n ++ [(k2, [f])])
  else m ++ [(k1, [(k2, [f])])]

/-! ## `get_inter_facets` (parallel.py lines 16-57) -/

/-- Facet-to-cell connectivity `cfc` in compressed-row form: facet `f`
borders the cells `indices[offsets[f] : offsets[f+1]]`; `num` facets. -/
structure CMeshConn where
  num : Nat
  offsets : List Nat
  indices : List Nat
deriving Repr, DecidableEq

/-- Number of cells bordering facet `f`. -/
def facetCellCount (cfc : CMeshConn) (f : Nat) : Nat :=
  cfc.offsets.getD (f + 1) 0 - cfc.offsets.getD f 0

/-- The bordering cells of facet `f`. -/
def facetCells (cfc : CMeshConn) (f : Nat) : List Nat :=
  (cfc.indices.drop (cfc.offsets.getD f 0)).take (facetCellCount cfc f)

/-- Modelled from the spec: `cmesh.get_surface_facets()` (external to
`src/`) returns the surface facets, those with exactly one bordering cell
("Boundary facets (one bordering cell) are never inter-task"). -/
def get_surface_facets (cfc : CMeshConn) : List Nat :=
  (List.range cfc.num).filter (fun f => facetCellCount cfc f == 1)

/-- Shallow embedding of `get_inter_facets(domain, cell_tasks)`: for every
inner facet whose two bordering cells lie in different tasks `i0 ≠ i1`,
append the facet under both `(i0, i1)` and `(i1, i0)`. -/
def get_inter_facets (cfc : CMeshConn) (cell_tasks : List Nat) :
    List (Nat × List (Nat × List Nat)) :=
  let ftasks := cfc.indices.map (fun c => cell_tasks.getD c 0)
  let if_inner := setdiff (List.range cfc.num) (get_surface_facets cfc)
  let if_inter := if_inner.filter (fun f =>
    !(ftasks.getD (cfc.offsets.getD f 0) 0 == ftasks.getD (cfc.offsets.getD f 0 + 1) 0))
  if_inter.foldl (fun m f =>
    let i0 := ftasks.getD (cfc.offsets.getD f 0) 0
    let i1 := ftasks.getD (cfc.offsets.getD f 0 + 1) 0
    dictAppend (dictAppend m i0 i1 f) i1 i0 f) []

/-! ## `create_task_dof_maps` (parallel.py lines 59-152)

External collaborators modelled from the spec:
* `field.get_dofs_in_region(cregion)` on the cell region of task `t` is
  the set of all dofs touching `t`'s cells ("Compute the set of all dofs
  touching `t`'s owned cells"), i.e. the sorted distinct entries of the
  rows of `field.ap.econn` over `cell_parts[t]`;
* the `FESurface` sub-connectivity `sd.get_connectivity()` has one row of
  dofs per facet of the interface region ("build the sub-connectivity of
  just those facets' local nodes"), supplied here as `facet_dofs`, and
  `field.get_dofs_in_region(region)` on the facet region is the set of
  dofs appearing in those rows.
-/

/-- Per-task DOF map `[inner, [own_inter1, ...], n_task_total, task_offset]`
(the Python value `[None, [], 0, 0]` at creation). -/
structure DofMapEntry where
  inner : Option (List Nat)
  blocks : List (List Nat)
  nOwned : Nat
  offset : Nat
deriving Repr, DecidableEq

/-- Fresh `dof_maps.setdefault(t, [None, [], 0, 0])` entry. -/
def initEntry : DofMapEntry := ⟨none, [], 0, 0⟩

/-- The dofs a task owns, inner dofs first, then the interface blocks in
creation order (matching the order global ids are assigned). -/
def entryOwned (e : DofMapEntry) : List Nat := e.inner.getD [] ++ e.blocks.flatten

/-- `e` with a new owned-interface block appended. -/
def addBlock (e : DofMapEntry) (b : List Nat) : DofMapEntry :=
  { e with blocks := e.blocks ++ [b], nOwned := e.nOwned + b.length }

/-- State of the claim phase: the 0/1 claim bitmap `id_map`, the dict of
per-task DOF maps, and the running counters `count` / `inter_count`. -/
structure ClaimState where
  idMap : List Nat
  dofMaps : List (Nat × DofMapEntry)
  count : Nat
  interCount : Nat
deriving Repr, DecidableEq

/-- `id_map[ds] = 1`. -/
def markClaimed (idMap : List Nat) (ds : List Nat) : List Nat :=
  ds.foldl (fun m d => m.set d 1) idMap

/-- All dofs owned by some task across the dict. -/
def allOwned (dms : List (Nat × DofMapEntry)) : List Nat :=
  (dms.map (fun p => entryOwned p.2)).flatten

/-- Sum of all tasks' `n_task_total` owned counts. -/
def sumOwned (dms : List (Nat × DofMapEntry)) : Nat :=
  (dms.map (fun p => p.2.nOwned)).sum

/-- One half of an interface facet block (lines 103-111 resp. 113-121):
`dx = nm.unique(econn[half])`, keep the unclaimed dofs, and if any, append
them as a new owned-interface block of task `k`, mark them claimed and
bump the counters (`if n_new:` skips everything when nothing is new). -/
def claimHalf (k : Nat) (st : ClaimState) (half : List (List Nat)) : ClaimState :=
  let dx := uniq half.flatten
  let new := dx.filter (fun d => st.idMap.getD d 0 == 0)
  if new.isEmpty then st else
    { st with dofMaps := alUpdate st.dofMaps k (fun e => addBlock e new),
              idMap := markClaimed st.idMap new,
              interCount := st.interCount + new.length,
              count := st.count + new.length }

/-- One interface `(ir, ic)` of the claim phase (lines 83-121): the facet
sub-connectivity rows, the split index `ii2 = max(n_facet // 2, 1)`, the
claims of the unclaimed dofs of the first half for `ir` and of the
unclaimed dofs of the second half for `ic`.  Returns the new state and
the interface region dofs appended to `inter_dofs`. -/
def processNeighbor (facet_dofs : List (List Nat)) (ir : Nat)
    (st : ClaimState) (p : Nat × List Nat) : ClaimState × List Nat :=
  let ic := p.1
  let st := { st with dofMaps := alSetdefault st.dofMaps ic initEntry }
  let econnS := p.2.map (fun f => facet_dofs.getD f [])
  let ii2 := max (econnS.length / 2) 1
  let interRegionDofs := uniq econnS.flatten
  let st := claimHalf ir st (econnS.take ii2)
  let st := claimHalf ic st (econnS.drop ii2)
  (st, interRegionDofs)

/-- All dofs touching the cells of task `ir` (`field.get_dofs_in_region`
on the task's cell region, see the section comment). -/
def taskDofs (econn cell_parts : List (List Nat)) (ir : Nat) : List Nat :=
  uniq ((cell_parts.getD ir []).map (fun c => econn.getD c [])).flatten

/-- One outer iteration (lines 75-132) for `(ir, ntasks)`: append the
helper cell region, process the neighbors in increasing id order, pop the
helper region, then claim the inner dofs; `assert_(nm.all(id_map[inner_dofs]
== 0))` failing is `none`. -/
def processTask (econn facet_dofs cell_parts : List (List Nat))
    (acc : ClaimState × List String) (pr : Nat × List (Nat × List Nat)) :
    Option (ClaimState × List String) :=
  let ir := pr.1
  let regions := acc.2 ++ ["task_" ++ toString ir]
  let dofs := taskDofs econn cell_parts ir
  let st := { acc.1 with dofMaps := alSetdefault acc.1.dofMaps ir initEntry }
  let res := (ordered_items pr.2).foldl
    (fun (a : ClaimState × List (List Nat)) p =>
      let r := processNeighbor facet_dofs ir a.1 p
      (r.1, a.2 ++ [r.2])) (st, [])
  let st := res.1
  let regions := regions.dropLast
  let innerDofs := setdiff dofs res.2.flatten
  if innerDofs.all (fun d => st.idMap.getD d 0 == 0) then
    some ({ st with
      dofMaps := alUpdate st.dofMaps ir (fun e =>
        { e with inner := some innerDofs, nOwned := e.nOwned + innerDofs.length }),
      idMap := markClaimed st.idMap innerDofs,
      count := st.count + innerDofs.length }, regions)
  else none

/-- The claim phase: fold over the tasks of `inter_facets` in increasing
id order (lines 75-132). -/
def claimPhase (econn facet_dofs cell_parts : List (List Nat)) (n_nod : Nat)
    (regions0 : List String) (inter_facets : List (Nat × List (Nat × List Nat))) :
    Option (ClaimState × List String) :=
  (ordered_items inter_facets).foldlM (processTask econn facet_dofs cell_parts)
    (⟨List.replicate n_nod 0, [], 0, 0⟩, regions0)

/-- `id_map[ds] = nm.arange(s, s + len(ds))`. -/
def assignIds : List Nat → Nat → List Nat → List Nat
  | m, _, [] => m
  | m, s, d :: ds => assignIds (m.set d s) (s + 1) ds

/-- One iteration of the numbering loop (lines 135-150): assign
consecutive ids to the inner dofs, then to each owned-interface block,
check `i0 == n_owned`, record the task offset.  `len(dof_map[0])` with
`dof_map[0] = None` is a Python `TypeError`, hence `none`. -/
def numberTask (acc : List (Nat × DofMapEntry) × List Nat × Nat)
    (p : Nat × DofMapEntry) : Option (List (Nat × DofMapEntry) × List Nat × Nat) :=
  match p.2.inner with
  | none => none
  | some inn =>
    let idMap := assignIds acc.2.1 acc.2.2 inn
    let res := p.2.blocks.foldl
      (fun (a : List Nat × Nat) b => (assignIds a.1 (acc.2.2 + a.2) b, a.2 + b.length))
      (idMap, inn.length)
    if res.2 = p.2.nOwned then
      some (alUpdate acc.1 p.1 (fun e => { e with offset := acc.2.2 }),
            res.1, acc.2.2 + p.2.nOwned)
    else none

/-- Shallow embedding of `create_task_dof_maps(field, cell_parts,
inter_facets)`, returning the per-task DOF maps, the final `id_map` and
the domain's region list on return. -/
def create_task_dof_maps (econn facet_dofs cell_parts : List (List Nat)) (n_nod : Nat)
    (regions0 : List String) (inter_facets : List (Nat × List (Nat × List Nat))) :
    Option (List (Nat × DofMapEntry) × List Nat × List String) :=
  match claimPhase econn facet_dofs cell_parts n_nod regions0 inter_facets with
  | none => none
  | some (st, regs) =>
    match (ordered_items st.dofMaps).foldlM numberTask (st.dofMaps, st.idMap, 0) with
    | none => none
    | some (dms, idMap, _) => some (dms, idMap, regs)

/-! ## Spec-side model of the interface-dof ownership split (for C2)

Modelled from the spec's words (§4.2): "Processes tasks in increasing
numeric id order. [...] For each neighboring task `n` (also processed in
increasing id order) with shared facets: build the sub-connectivity of
just those facets' local nodes, split this facet list into two contiguous
halves by index [...]. For every dof touched by the first half that is
unclaimed in the ClaimTable, claim it for `t` as a new owned-interface
block. For every dof touched by the second half that is unclaimed, claim
it for `n`."  The ClaimTable is the spec's "process-wide bitmap over all
mesh dofs" (§3); step 3 claims the dofs touched by `t` that were not
claimed in step 2, i.e. those not lying on `t`'s interface facets.  The
split index is `max(n_facet // 2, 1)`, the code's accepted deterministic
tie-break (§9: "preserve it exactly for numbering compatibility"). -/

/-- Spec-side ownership state: the ClaimTable bitmap and the
owned-interface blocks claimed so far for every task. -/
structure SpecOwnership where
  claimed : List Bool
  inter : Nat → List (List Nat)

/-- Spec step 2 for one neighbor pair: claim the unclaimed dofs of the
first half of the facet list for `t`, then the unclaimed dofs of the
second half for the neighbor. -/
def specNeighborStep (facet_dofs : List (List Nat)) (t : Nat)
    (s : SpecOwnership) (p : Nat × List Nat) : SpecOwnership :=
  let rows := p.2.map (fun f => facet_dofs.getD f [])
  let half := max (rows.length / 2) 1
  let firstNew := (uniq (rows.take half).flatten).filter
    (fun d => !(s.claimed.getD d false))
  let s := if firstNew.isEmpty then s else
    { claimed := firstNew.foldl (fun c d => c.set d true) s.claimed,
      inter := fun u => if u = t then s.inter t ++ [firstNew] else s.inter u }
  let secondNew := (uniq (rows.drop half).flatten).filter
    (fun d => !(s.claimed.getD d false))
  if secondNew.isEmpty then s else
    { claimed := secondNew.foldl (fun c d => c.set d true) s.claimed,
      inter := fun u => if u = p.1 then s.inter p.1 ++ [secondNew] else s.inter u }

/-- Spec steps 2 and 3 for one task `t`: process its neighbors in the
given order, then claim the dofs touched by `t` not claimed in step 2
(those not on `t`'s interface facets) as inner dofs. -/
def specTaskStep (econn facet_dofs cell_parts : List (List Nat))
    (s : SpecOwnership) (pr : Nat × List (Nat × List Nat)) : SpecOwnership :=
  let t := pr.1
  let s := pr.2.foldl (specNeighborStep facet_dofs t) s
  let touched := (pr.2.map (fun p =>
    uniq (p.2.map (fun f => facet_dofs.getD f [])).flatten)).flatten
  let innerDofs := setdiff (taskDofs econn cell_parts t) touched
  { s with claimed := innerDofs.foldl (fun c d => c.set d true) s.claimed }

/-- The spec-side ownership construction over an already key-sorted flat
task list: fold the per-task steps starting from an all-unclaimed
ClaimTable. -/
def specOwnership (econn facet_dofs cell_parts : List (List Nat)) (n_nod : Nat)
    (pairs : List (Nat × List (Nat × List Nat))) : SpecOwnership :=
  pairs.foldl (specTaskStep econn facet_dofs cell_parts)
    ⟨List.replicate n_nod false, fun _ => []⟩

/-- The sorted flat enumeration of an interface map: tasks in increasing
id order, each with its neighbors in increasing id order. -/
def sortedPairs (inter_facets : List (Nat × List (Nat × List Nat))) :
    List (Nat × List (Nat × List Nat)) :=
  (ordered_items inter_facets).map (fun p => (p.1, ordered_items p.2))

/-! ## `distribute_field_dofs` (parallel.py lines 154-239) -/

/-- The root-rank sanity checks (lines 174-177).  `n_cell_parts` is a
Python list; under Python 2, `n_cell_parts > 0` compares a `list` with an
`int`, and objects of different types compare by type name, so any list
is greater than any integer: the comparison is the constant `True`, and
`nm.all(True)` is `True`. -/
def py2_list_gt_int (_ncp : List Nat) (_k : Int) : Bool :=
  true

/-- Shallow embedding of the two `assert_` checks the root rank runs
before sending any data: `sum(n_cell_parts) == n_el` and
`nm.all(n_cell_parts > 0)`; `true` means both pass and distribution
proceeds. -/
def distribute_field_dofs_root_checks (cell_parts : List (List Nat)) (n_el : Nat) : Bool :=
  let n_cell_parts := cell_parts.map List.length
  (n_cell_parts.sum == n_el) && py2_list_gt_int n_cell_parts 0

/-- The intended elementwise reading of `nm.all(n_cell_parts > 0)`: every
task owns at least one cell. -/
def every_task_owns_cells (cell_parts : List (List Nat)) : Bool :=
  (cell_parts.map List.length).all (fun n => 0 < n)

/-- A message on the blocking point-to-point channel: a pickled scalar
(`mpi.send`) or a raw integer array (`mpi.Send`). -/
inductive Msg where
  | scalar (n : Nat)
  | buffer (a : List Nat)
deriving Repr, DecidableEq

/-- Rebuild an `nrow × ncol` array from the flat receive buffer (the
receiver's `nm.empty((n_cell, n_cdof))` filled row by row by `Recv`). -/
def reshape2 (nrow ncol : Nat) (flat : List Nat) : List (List Nat) :=
  (List.range nrow).map (fun i => (flat.drop (i * ncol)).take ncol)

/-- The per-cell connectivity in PETSc dof ids sent to task `it`:
`id_map[field.ap.econn[cell_parts[it]]]` (lines 192-193). -/
def petscDofsConn (econn : List (List Nat)) (id_map : List Nat)
    (cells : List Nat) : List (List Nat) :=
  cells.map (fun c => (econn.getD c []).map (fun g => id_map.getD g 0))

/-- The messages the coordinator sends to task `it` (lines 180-196), in
order: owned cell count, owned cell array, dof-range start, dof-range
end, connectivity row count, connectivity row width, connectivity array.
`dof_maps[it]` on an absent key is a Python `KeyError`, hence `none`. -/
def send_to_task (econn cell_parts : List (List Nat)) (id_map : List Nat)
    (dof_maps : List (Nat × DofMapEntry)) (it : Nat) : Option (List Msg) :=
  match dof_maps.lookup it with
  | none => none
  | some dm =>
    let cells := cell_parts.getD it []
    let conn := petscDofsConn econn id_map cells
    some [Msg.scalar cells.length, Msg.buffer cells,
          Msg.scalar dm.offset, Msg.scalar (dm.offset + dm.nOwned),
          Msg.scalar conn.length, Msg.scalar (conn.headD []).length,
          Msg.buffer conn.flatten]

/-- The receiving branch (lines 213-227): receive the five pieces in the
fixed order and rebuild `(cells, petsc_dofs_range, petsc_dofs_conn)`; a
buffer whose length disagrees with the announced shape is an MPI
truncation error, hence `none`. -/
def recv_from_root : List Msg → Option (List Nat × (Nat × Nat) × List (List Nat))
  | Msg.scalar n_cell :: Msg.buffer cells :: Msg.scalar i0 :: Msg.scalar i1 ::
      Msg.scalar nrow :: Msg.scalar ncol :: Msg.buffer flat :: _ =>
    if cells.length == n_cell && flat.length == nrow * ncol then
      some (cells, (i0, i1), reshape2 nrow ncol flat)
    else none
  | _ => none

/-! ## Observation helpers used only in statements -/

/-- `InterfaceMap[t0][t1]`: the facets recorded under the key pair. -/
def interLookup (m : List (Nat × List (Nat × List Nat))) (t0 t1 : Nat) : List Nat :=
  alGetD (alGetD m t0 []) t1 []

/-- The stored positions of row `r` of a CSR matrix. -/
def rowPositions (m : CSRMatrix) (r : Nat) : List Nat :=
  arange (m.indptr.getD r 0) (m.indptr.getD (r + 1) 0 - m.indptr.getD r 0)

/-- The column ids of the nonzero stored entries of row `r`. -/
def rowNonzeroCols (m : CSRMatrix) (r : Nat) : List Nat :=
  ((rowPositions m r).filter (fun p => !(m.data.getD p 0 == 0))).map
    (fun p => m.indices.getD p 0)

/-- The values of the nonzero stored entries of row `r`. -/
def rowNonzeroVals (m : CSRMatrix) (r : Nat) : List ℚ :=
  ((rowPositions m r).filter (fun p => !(m.data.getD p 0 == 0))).map
    (fun p => m.data.getD p 0)

/-- Invariant of the claim phase of `create_task_dof_maps`: the claim
bitmap `id_map` has one 0/1 flag per dof and a dof is flagged exactly
when it sits in exactly one task's inner/interface ownership lists; the
bookkeeping counters and key structure are consistent. -/
def claimInv (n_nod : Nat) (st : ClaimState) : Prop :=
  st.idMap.length = n_nod ∧
  (∀ d, st.idMap.getD d 0 = 0 ∨ st.idMap.getD d 0 = 1) ∧
  (∀ d, (allOwned st.dofMaps).count d = if st.idMap.getD d 0 = 1 then 1 else 0) ∧
  (∀ p ∈ st.dofMaps, p.2.nOwned = (entryOwned p.2).length ∧ p.2.offset = 0) ∧
  (alKeys st.dofMaps).Nodup

/-! ## Basic lemmas about the numpy-style list helpers -/

theorem mem_insSorted {a b : Nat} {l : List Nat} :
    a ∈ insSorted b l ↔ a = b ∨ a ∈ l := by
  induction l with
  | nil => simp [insSorted]
  | cons c l ih =>
    simp only [insSorted]
    split
    · simp
    · simp only [List.mem_cons, ih]
      tauto

theorem mem_sortNat {a : Nat} {l : List Nat} : a ∈ sortNat l ↔ a ∈ l := by
  induction l with
  | nil => simp [sortNat]
  | cons b l ih => simp [sortNat, List.foldr_cons, mem_insSorted, ih.symm]

theorem mem_uniq {a : Nat} {l : List Nat} : a ∈ uniq l ↔ a ∈ l := by
  simp [uniq, List.mem_dedup, mem_sortNat]

theorem nodup_uniq (l : List Nat) : (uniq l).Nodup := List.nodup_dedup _

theorem sorted_insSorted {b : Nat} {l : List Nat} (h : l.Sorted (· ≤ ·)) :
    (insSorted b l).Sorted (· ≤ ·) := by
  induction l with
  | nil => simp [insSorted]
  | cons c l ih =>
    rw [List.sorted_cons] at h
    simp only [insSorted]
    by_cases hbc : b ≤ c
    · rw [if_pos hbc, List.sorted_cons]
      refine ⟨?_, List.sorted_cons.2 h⟩
      intro x hx
      rcases List.mem_cons.1 hx with rfl | hx
      · exact hbc
      · exact le_trans hbc (h.1 x hx)
    · rw [if_neg hbc, List.sorted_cons]
      refine ⟨?_, ih h.2⟩
      intro x hx
      rcases mem_insSorted.1 hx with rfl | hx
      · omega
      · exact h.1 x hx

theorem sorted_sortNat (l : List Nat) : (sortNat l).Sorted (· ≤ ·) := by
  induction l with
  | nil => simp [sortNat]
  | cons b l ih => exact sorted_insSorted ih

theorem sorted_uniq (l : List Nat) : (uniq l).Sorted (· ≤ ·) :=
  List.Pairwise.sublist (List.dedup_sublist _) (sorted_sortNat l)

theorem mem_setdiff {a : Nat} {l b : List Nat} :
    a ∈ setdiff l b ↔ a ∈ l ∧ a ∉ b := by
  simp [setdiff, mem_uniq, List.mem_filter]

theorem nodup_setdiff (l b : List Nat) : (setdiff l b).Nodup := nodup_uniq _

theorem length_arange (s n : Nat) : (arange s n).length = n := by
  simp [arange]

theorem mem_arange {a s n : Nat} : a ∈ arange s n ↔ s ≤ a ∧ a < s + n := by
  simp only [arange, List.mem_map, List.mem_range]
  constructor
  · rintro ⟨j, hj, rfl⟩; omega
  · rintro ⟨h1, h2⟩; exact ⟨a - s, by omega, by omega⟩

theorem arange_zero (s : Nat) : arange s 0 = [] := rfl

theorem arange_succ (s n : Nat) : arange s (n + 1) = s :: arange (s + 1) n := by
  simp only [arange, List.range_succ_eq_map, List.map_cons, Nat.add_zero, List.map_map]
  congr 1
  refine List.map_congr_left (fun a _ => ?_)
  simp only [Function.comp_apply]
  omega

theorem arange_append (s m n : Nat) :
    arange s m ++ arange (s + m) n = arange s (m + n) := by
  induction m generalizing s with
  | zero => simp [arange_zero]
  | succ m ih =>
    rw [show m + 1 + n = (m + n) + 1 by omega, arange_succ, arange_succ, List.cons_append]
    congr 1
    rw [show s + (m + 1) = (s + 1) + m by omega]
    exact ih (s + 1)

theorem nodup_arange (s n : Nat) : (arange s n).Nodup := by
  refine List.Nodup.map_on ?_ (List.nodup_range n)
  intro x _ y _ h
  omega

theorem arange_zero_start (n : Nat) : arange 0 n = List.range n := by
  simp only [arange]
  rw [List.map_congr_left (fun a _ => Nat.zero_add a)]
  simp

theorem getD_set_self {l : List Nat} {i v : Nat} (h : i < l.length) :
    (l.set i v).getD i 0 = v := by
  rw [List.getD_eq_getElem _ _ (by simpa), List.getElem_set_self]

theorem getD_set_ne {l : List Nat} {i v j : Nat} (h : i ≠ j) :
    (l.set i v).getD j 0 = l.getD j 0 := by
  simp [List.getD_eq_getElem?_getD, List.getElem?_set_ne h]

theorem getD_set_oob {l : List Nat} {i v j : Nat} (h : l.length ≤ i) :
    (l.set i v).getD j 0 = l.getD j 0 := by
  rw [List.set_eq_of_length_le h]

theorem length_markClaimed (m : List Nat) (ds : List Nat) :
    (markClaimed m ds).length = m.length := by
  induction ds generalizing m with
  | nil => rfl
  | cons d ds ih =>
    show (markClaimed (m.set d 1) ds).length = m.length
    rw [ih, List.length_set]

/-- The effect of `id_map[ds] = 1` on a single position. -/
theorem getD_markClaimed (m : List Nat) (ds : List Nat) (x : Nat) :
    (markClaimed m ds).getD x 0 =
      if x ∈ ds ∧ x < m.length then 1 else m.getD x 0 := by
  induction ds generalizing m with
  | nil => simp [markClaimed]
  | cons d ds ih =>
    show (markClaimed (m.set d 1) ds).getD x 0 = _
    rw [ih]
    by_cases hxd : x = d
    · subst hxd
      rw [List.length_set]
      by_cases hx : x < m.length
      · by_cases hmem : x ∈ ds <;> simp [hmem, hx, getD_set_self hx]
      · rw [getD_set_oob (le_of_not_lt hx)]
        by_cases hmem : x ∈ ds <;> simp [hmem, hx]
    · rw [getD_set_ne (Ne.symm hxd), List.length_set]
      simp [List.mem_cons, hxd]

theorem getD_markClaimed_of_not_mem {m ds : List Nat} {x : Nat} (h : x ∉ ds) :
    (markClaimed m ds).getD x 0 = m.getD x 0 := by
  rw [getD_markClaimed]; simp [h]

theorem getD_markClaimed_of_mem {m ds : List Nat} {x : Nat} (h : x ∈ ds)
    (hx : x < m.length) : (markClaimed m ds).getD x 0 = 1 := by
  rw [getD_markClaimed]; simp [h, hx]

/-- Marking never unclaims: a position holding `1` keeps holding `1`. -/
theorem markClaimed_mono {m ds : List Nat} {x : Nat}
    (h : m.getD x 0 = 1) : (markClaimed m ds).getD x 0 = 1 := by
  rw [getD_markClaimed]
  split
  · rfl
  · exact h

theorem getD_oob {l : List Nat} {x : Nat} (h : l.length ≤ x) : l.getD x 0 = 0 := by
  simp [List.getD_eq_getElem?_getD, List.getElem?_eq_none h]

/-! ## C8: `expand_dofs` is the interleaving bijection -/

theorem length_expand_dofs (dofs : List Nat) (nc : Nat) :
    (expand_dofs dofs nc).length = nc * dofs.length := by
  simp [expand_dofs]

theorem getD_expand_dofs (dofs : List Nat) (nc : Nat) {j : Nat}
    (hj : j < nc * dofs.length) :
    (expand_dofs dofs nc).getD j 0 = nc * dofs.getD (j / nc) 0 + j % nc := by
  rw [List.getD_eq_getElem _ _ (by simpa [expand_dofs])]
  simp [expand_dofs]

/-- C8, membership: the entries of `expand_dofs` are exactly the values
`n_components * dof + component`. -/
theorem mem_expand_dofs {dofs : List Nat} {nc : Nat} (hnc : 1 ≤ nc) {e : Nat} :
    e ∈ expand_dofs dofs nc ↔ ∃ d ∈ dofs, ∃ i, i < nc ∧ e = nc * d + i := by
  simp only [expand_dofs, List.mem_map, List.mem_range]
  constructor
  · rintro ⟨j, hj, rfl⟩
    refine ⟨dofs.getD (j / nc) 0, ?_, j % nc, Nat.mod_lt _ (by omega), rfl⟩
    have hdiv : j / nc < dofs.length := Nat.div_lt_of_lt_mul (by omega)
    rw [List.getD_eq_getElem _ _ hdiv]
    exact List.getElem_mem hdiv
  · rintro ⟨d, hd, i, hi, rfl⟩
    obtain ⟨k, hk, rfl⟩ := List.mem_iff_getElem.1 hd
    refine ⟨nc * k + i, by nlinarith, ?_⟩
    rw [Nat.mul_add_div (by omega), Nat.mul_add_mod, Nat.div_eq_of_lt hi,
        Nat.mod_eq_of_lt hi, Nat.add_zero, List.getD_eq_getElem _ _ hk]

theorem nodup_expand_dofs {dofs : List Nat} {nc : Nat} (hnc : 1 ≤ nc)
    (hd : dofs.Nodup) : (expand_dofs dofs nc).Nodup := by
  refine List.Nodup.map_on ?_ (List.nodup_range _)
  intro x hx y hy hxy
  rw [List.mem_range] at hx hy
  have hxd : x / nc < dofs.length := Nat.div_lt_of_lt_mul (by omega)
  have hyd : y / nc < dofs.length := Nat.div_lt_of_lt_mul (by omega)
  have hx' : x % nc < nc := Nat.mod_lt _ (by omega)
  have hy' : y % nc < nc := Nat.mod_lt _ (by omega)
  have hmod : x % nc = y % nc := by
    have := congrArg (· % nc) hxy
    simpa [Nat.mul_add_mod, Nat.mod_eq_of_lt hx', Nat.mod_eq_of_lt hy'] using this
  have hvals : dofs.getD (x / nc) 0 = dofs.getD (y / nc) 0 := by
    have := congrArg (· / nc) hxy
    simpa [Nat.mul_add_div (show 0 < nc by omega), Nat.div_eq_of_lt hx',
           Nat.div_eq_of_lt hy'] using this
  rw [List.getD_eq_getElem _ _ hxd, List.getD_eq_getElem _ _ hyd] at hvals
  have hdiveq : x / nc = y / nc := (List.Nodup.getElem_inj_iff hd).1 hvals
  calc x = nc * (x / nc) + x % nc := (Nat.div_add_mod x nc).symm
    _ = nc * (y / nc) + y % nc := by rw [hdiveq, hmod]
    _ = y := Nat.div_add_mod y nc

theorem expand_dofs_range (nc : Nat) (total : Nat) :
    expand_dofs (List.range total) nc = List.range (nc * total) := by
  simp only [expand_dofs, List.length_range]
  rw [List.map_congr_left, List.map_id]
  intro j hj
  rw [List.mem_range] at hj
  have : j / nc < total := Nat.div_lt_of_lt_mul (by omega)
  rw [List.getD_eq_getElem _ _ (by simpa), List.getElem_range]
  exact Nat.div_add_mod j nc

/-- C8: for `n_components ≥ 1` and an injective dof array, `expand_dofs`
returns `n_components * len` entries, which are exactly the values
`n_components * dof + component`, with no repetition; position `j` holds
`n_components * dofs[j / n_components] + j % n_components`, so the map
`(dof, component) ↦ n_components * dof + component` is inverted by
`e ↦ (e / n_components, e % n_components)`; applied to all of
`List.range total_dofs` it covers exactly the `n_components * total_dofs`
equation ids. -/
theorem expand_dofs_is_bijection (dofs : List Nat) (nc : Nat)
    (hnc : 1 ≤ nc) (hd : dofs.Nodup) :
    (expand_dofs dofs nc).length = nc * dofs.length ∧
    (∀ e, e ∈ expand_dofs dofs nc ↔ ∃ d ∈ dofs, ∃ i, i < nc ∧ e = nc * d + i) ∧
    (expand_dofs dofs nc).Nodup ∧
    (∀ d i, i < nc → (nc * d + i) / nc = d ∧ (nc * d + i) % nc = i) ∧
    (∀ total, expand_dofs (List.range total) nc = List.range (nc * total)) :=
  ⟨length_expand_dofs dofs nc, fun _ => mem_expand_dofs hnc,
   nodup_expand_dofs hnc hd,
   fun d i hi => by
     rw [Nat.mul_add_div (by omega), Nat.mul_add_mod, Nat.div_eq_of_lt hi,
         Nat.mod_eq_of_lt hi, Nat.add_zero]
     exact ⟨rfl, rfl⟩,
   expand_dofs_range nc⟩

/-- Witness for C8 at `dofs = [3, 1, 0]`, `n_components = 2`. -/
theorem expand_dofs_is_bijection_witness :
    (1 ≤ 2 ∧ ([3, 1, 0] : List Nat).Nodup) ∧
    (expand_dofs [3, 1, 0] 2).Nodup ∧ expand_dofs [3, 1, 0] 2 = [6, 7, 2, 3, 0, 1] :=
  ⟨⟨by decide, by decide⟩,
   (expand_dofs_is_bijection [3, 1, 0] 2 (by decide) (by decide)).2.2.1,
   by decide⟩

/-! ## C6: the zero-cells partition check is vacuous (a code bug) -/

/-- C6: `distribute_field_dofs` is supposed to stop with a fatal
Partition-Inconsistency diagnostic when a task owns zero cells, and
`assert_(nm.all(n_cell_parts > 0))` was clearly written to check exactly
that; but `n_cell_parts` is a Python list and under Python 2 `list > int`
is the constant `True`, so the assertion always passes.  At the concrete
input `cell_parts = [[], [0, 1]]` (task 0 owns zero cells, 2 mesh cells)
the root checks succeed and distribution proceeds, although the intended
elementwise check is false. -/
theorem distribute_checks_pass_with_empty_task :
    distribute_field_dofs_root_checks [[], [0, 1]] 2 = true ∧
    every_task_owns_cells [[], [0, 1]] = false :=
  ⟨rfl, rfl⟩

/-! ## Lemmas on position-wise list writes (for `apply_ebc_to_matrix`) -/

theorem getD_set_self' {α : Type} {l : List α} {i : Nat} {v dflt : α}
    (h : i < l.length) : (l.set i v).getD i dflt = v := by
  rw [List.getD_eq_getElem _ _ (by simpa), List.getElem_set_self]

theorem getD_set_ne' {α : Type} {l : List α} {i j : Nat} {v dflt : α}
    (h : i ≠ j) : (l.set i v).getD j dflt = l.getD j dflt := by
  simp [List.getD_eq_getElem?_getD, List.getElem?_set_ne h]

theorem getD_set_oob' {α : Type} {l : List α} {i j : Nat} {v dflt : α}
    (h : l.length ≤ i) : (l.set i v).getD j dflt = l.getD j dflt := by
  rw [List.set_eq_of_length_le h]

/-- A fold writing `g ic` at every position `ic` of `ps`, read back at `p`. -/
theorem getD_foldl_set {α : Type} (g : Nat → α) (dflt : α) :
    ∀ (ps : List Nat) (d : List α) (p : Nat),
      (ps.foldl (fun d ic => d.set ic (g ic)) d).getD p dflt =
        if p ∈ ps ∧ p < d.length then g p else d.getD p dflt := by
  intro ps
  induction ps with
  | nil => simp
  | cons q ps ih =>
    intro d p
    rw [List.foldl_cons, ih]
    by_cases hq : p = q
    · subst hq
      by_cases hlen : p < d.length
      · by_cases hmem : p ∈ ps <;>
          simp [hmem, hlen, List.length_set, getD_set_self' hlen]
      · rw [getD_set_oob' (le_of_not_lt hlen)]
        by_cases hmem : p ∈ ps <;> simp [hmem, hlen, List.length_set]
    · rw [getD_set_ne' (Ne.symm hq)]
      simp [List.length_set, List.mem_cons, hq]

theorem length_foldl_set {α : Type} (g : Nat → α) :
    ∀ (ps : List Nat) (d : List α),
      (ps.foldl (fun d ic => d.set ic (g ic)) d).length = d.length := by
  intro ps
  induction ps with
  | nil => simp
  | cons q ps ih => intro d; rw [List.foldl_cons, ih, List.length_set]

theorem length_ebcRow (indptr indices : List Nat) (d : List ℚ) (r : Nat) :
    (ebcRow indptr indices d r).length = d.length :=
  length_foldl_set _ _ d

/-- The effect of one constrained row on a single stored position. -/
theorem getD_ebcRow (indptr indices : List Nat) (d : List ℚ) (r p : Nat) :
    (ebcRow indptr indices d r).getD p 0 =
      if p ∈ arange (indptr.getD r 0) (indptr.getD (r + 1) 0 - indptr.getD r 0)
          ∧ p < d.length
      then (if indices.getD p 0 = r then 1 else 0) else d.getD p 0 :=
  getD_foldl_set _ _ _ d p

/-- Positions outside every constrained row's range keep their value. -/
theorem getD_ebc_fold_untouched (indptr indices : List Nat) :
    ∀ (ebc : List Nat) (d : List ℚ) (p : Nat),
      (∀ r ∈ ebc,
        p ∉ arange (indptr.getD r 0) (indptr.getD (r + 1) 0 - indptr.getD r 0)) →
      (ebc.foldl (fun d ir => ebcRow indptr indices d ir) d).getD p 0 = d.getD p 0 := by
  intro ebc
  induction ebc with
  | nil => simp
  | cons r ebc ih =>
    intro d p hp
    rw [List.foldl_cons, ih _ _ (fun r' hr' => hp r' (List.mem_cons_of_mem r hr')),
        getD_ebcRow, if_neg (fun hcon => hp r (List.mem_cons_self r ebc) hcon.1)]

theorem length_ebc_fold (indptr indices : List Nat) :
    ∀ (ebc : List Nat) (d : List ℚ),
      (ebc.foldl (fun d ir => ebcRow indptr indices d ir) d).length = d.length := by
  intro ebc
  induction ebc with
  | nil => simp
  | cons r ebc ih => intro d; rw [List.foldl_cons, ih, length_ebcRow]

/-- Positions of a row processed once, and untouched by every other
processed row, end at the identity-row values. -/
theorem getD_ebc_fold_touched (indptr indices : List Nat) :
    ∀ (ebc : List Nat) (d : List ℚ) (r p : Nat), r ∈ ebc → ebc.Nodup →
      p ∈ arange (indptr.getD r 0) (indptr.getD (r + 1) 0 - indptr.getD r 0) →
      p < d.length →
      (∀ r' ∈ ebc, r' ≠ r →
        p ∉ arange (indptr.getD r' 0) (indptr.getD (r' + 1) 0 - indptr.getD r' 0)) →
      (ebc.foldl (fun d ir => ebcRow indptr indices d ir) d).getD p 0 =
        (if indices.getD p 0 = r then 1 else 0) := by
  intro ebc
  induction ebc with
  | nil => simp
  | cons q ebc ih =>
    intro d r p hr hnd hp hplen hother
    rw [List.foldl_cons]
    rcases List.mem_cons.1 hr with rfl | hr
    · have hnotin : ∀ r' ∈ ebc, p ∉ arange (indptr.getD r' 0)
          (indptr.getD (r' + 1) 0 - indptr.getD r' 0) := by
        intro r' hr'
        exact hother r' (List.mem_cons_of_mem _ hr')
          (fun he => (List.nodup_cons.1 hnd).1 (he ▸ hr'))
      rw [getD_ebc_fold_untouched indptr indices ebc _ p hnotin, getD_ebcRow,
          if_pos ⟨hp, hplen⟩]
    · have hq : p ∉ arange (indptr.getD q 0) (indptr.getD (q + 1) 0 - indptr.getD q 0) :=
        hother q (List.mem_cons_self q ebc)
          (fun he => (List.nodup_cons.1 hnd).1 (he ▸ hr))
      refine ih _ r p hr (List.nodup_cons.1 hnd).2 hp ?_ ?_
      · rw [length_ebcRow]; exact hplen
      · intro r' hr' hne
        exact hother r' (List.mem_cons_of_mem _ hr') hne

/-- `getD` is monotone along a `≤`-sorted list of naturals. -/
theorem sorted_getD_mono {l : List Nat} (h : l.Sorted (· ≤ ·)) {i j : Nat}
    (hij : i ≤ j) (hj : j < l.length) : l.getD i 0 ≤ l.getD j 0 := by
  rcases Nat.eq_or_lt_of_le hij with rfl | hlt
  · exact le_refl _
  · rw [List.getD_eq_getElem _ _ (lt_trans hlt hj), List.getD_eq_getElem _ _ hj]
    exact (List.pairwise_iff_getElem.1 h) i j (lt_trans hlt hj) hj hlt

/-- Two distinct valid rows of a `≤`-sorted `indptr` have disjoint
position ranges. -/
theorem rows_disjoint {indptr : List Nat} (h : indptr.Sorted (· ≤ ·))
    {r r' p : Nat} (hr : r + 1 < indptr.length) (hr' : r' + 1 < indptr.length)
    (hne : r' ≠ r)
    (hp : p ∈ arange (indptr.getD r 0) (indptr.getD (r + 1) 0 - indptr.getD r 0)) :
    p ∉ arange (indptr.getD r' 0) (indptr.getD (r' + 1) 0 - indptr.getD r' 0) := by
  rw [mem_arange] at hp ⊢
  rcases Nat.lt_or_ge r' r with hlt | hge
  · have : indptr.getD (r' + 1) 0 ≤ indptr.getD r 0 :=
      sorted_getD_mono h (by omega) (by omega)
    omega
  · have : indptr.getD (r + 1) 0 ≤ indptr.getD r' 0 :=
      sorted_getD_mono h (by omega) (by omega)
    omega

/-! ## C10: `apply_ebc_to_matrix` touches only the constrained rows -/

/-- C10: the sparsity structure (`indptr`, `indices`) and the stored
values of every row not listed in `eq_map.eq_ebc` are unchanged. -/
theorem apply_ebc_to_matrix_frame (m : CSRMatrix) (ebc : List Nat)
    (hsorted : m.indptr.Sorted (· ≤ ·))
    (hrows : ∀ r ∈ ebc, r + 1 < m.indptr.length) :
    (apply_ebc_to_matrix m ebc).indptr = m.indptr ∧
    (apply_ebc_to_matrix m ebc).indices = m.indices ∧
    (apply_ebc_to_matrix m ebc).data.length = m.data.length ∧
    (∀ r, r ∉ ebc → r + 1 < m.indptr.length →
      ∀ p ∈ rowPositions m r,
        (apply_ebc_to_matrix m ebc).data.getD p 0 = m.data.getD p 0) := by
  refine ⟨rfl, rfl, length_ebc_fold _ _ _ _, ?_⟩
  intro r hr hrlen p hp
  refine getD_ebc_fold_untouched _ _ _ _ _ ?_
  intro r' hr'
  exact rows_disjoint hsorted hrlen (hrows r' hr') (fun he => hr (he ▸ hr')) hp

/-- Witness for C10 on a concrete `2 × 2`-pattern matrix. -/
theorem apply_ebc_to_matrix_frame_witness :
    (([0, 2, 3] : List Nat).Sorted (· ≤ ·) ∧
      (∀ r ∈ ([0] : List Nat), r + 1 < ([0, 2, 3] : List Nat).length)) ∧
    (apply_ebc_to_matrix ⟨[0, 2, 3], [0, 1, 1], [4, 5, 6]⟩ [0]).indices = [0, 1, 1] :=
  ⟨⟨by decide, by decide⟩,
   (apply_ebc_to_matrix_frame ⟨[0, 2, 3], [0, 1, 1], [4, 5, 6]⟩ [0]
     (by decide) (by decide)).2.1⟩

/-! ## C4: constrained rows become identity rows -/

/-- C4 counterexample: for a CSR matrix whose constrained row stores no
diagonal entry, the constrained row ends with no nonzero entry at all,
not with "exactly one nonzero entry, equal to 1.0, at the diagonal
column".  Here row `0` of the `2 × 2` matrix stores only column `1`. -/
theorem apply_ebc_to_matrix_no_diagonal_cex :
    rowNonzeroVals (apply_ebc_to_matrix ⟨[0, 1, 2], [1, 0], [5, 7]⟩ [0]) 0 = [] ∧
    rowNonzeroVals (⟨[0, 1, 2], [1, 0], [5, 7]⟩ : CSRMatrix) 0 = [5] := by
  constructor <;> rfl

/-- C4 as amended: provided every constrained row is a valid row whose
stored columns contain the diagonal exactly once, after
`apply_ebc_to_matrix` each constrained row holds `1` at its diagonal
position and `0` at every other stored position, hence has exactly one
nonzero entry, equal to `1`, at the diagonal column. -/
theorem apply_ebc_to_matrix_identity_rows (m : CSRMatrix) (ebc : List Nat)
    (hsorted : m.indptr.Sorted (· ≤ ·)) (hnd : ebc.Nodup)
    (hrows : ∀ r ∈ ebc, r + 1 < m.indptr.length)
    (hlen : ∀ r ∈ ebc, m.indptr.getD (r + 1) 0 ≤ m.data.length)
    (hdiag : ∀ r ∈ ebc,
      ((rowPositions m r).filter (fun p => m.indices.getD p 0 == r)).length = 1) :
    ∀ r ∈ ebc,
      (∀ p ∈ rowPositions m r,
        (apply_ebc_to_matrix m ebc).data.getD p 0 =
          if m.indices.getD p 0 = r then 1 else 0) ∧
      rowNonzeroCols (apply_ebc_to_matrix m ebc) r = [r] ∧
      rowNonzeroVals (apply_ebc_to_matrix m ebc) r = [1] := by
  intro r hr
  have hvals : ∀ p ∈ rowPositions m r,
      (apply_ebc_to_matrix m ebc).data.getD p 0 =
        if m.indices.getD p 0 = r then 1 else 0 := by
    intro p hp
    have hplen : p < m.data.length := by
      have := mem_arange.1 hp
      have := hlen r hr
      omega
    refine getD_ebc_fold_touched _ _ _ _ _ _ hr hnd hp hplen ?_
    intro r' hr' hne
    exact rows_disjoint hsorted (hrows r hr) (hrows r' hr') hne hp
  refine ⟨hvals, ?_, ?_⟩ <;> {
    have hposA : rowPositions (apply_ebc_to_matrix m ebc) r = rowPositions m r := rfl
    have hidxA : (apply_ebc_to_matrix m ebc).indices = m.indices := rfl
    have hfe : (rowPositions m r).filter
        (fun p => !((apply_ebc_to_matrix m ebc).data.getD p 0 == 0)) =
        (rowPositions m r).filter (fun p => m.indices.getD p 0 == r) := by
      refine List.filter_congr ?_
      intro p hp
      rw [hvals p hp]
      by_cases hc : m.indices.getD p 0 = r
      · rw [if_pos hc, hc]; simp
      · rw [if_neg hc, show (m.indices.getD p 0 == r) = false from
            beq_eq_false_iff_ne.2 hc]
        simp
    obtain ⟨a, ha⟩ := List.length_eq_one.1 (hdiag r hr)
    have haf : a ∈ (rowPositions m r).filter (fun p => m.indices.getD p 0 == r) := by
      rw [ha]; exact List.mem_singleton_self a
    have hamem : a ∈ rowPositions m r := (List.mem_filter.1 haf).1
    have hacol : m.indices.getD a 0 = r := by
      have := (List.mem_filter.1 haf).2
      simpa using this
    first
    | (show rowNonzeroCols _ _ = _
       rw [rowNonzeroCols, hposA, hidxA, hfe, ha]
       simp only [List.map_cons, List.map_nil]
       rw [hacol])
    | (show rowNonzeroVals _ _ = _
       rw [rowNonzeroVals, hposA, hfe, ha]
       simp only [List.map_cons, List.map_nil]
       rw [hvals a hamem, if_pos hacol])
  }

/-! ## C7: the five-message transport protocol reconstructs the tuple -/

/-- Flattening a rectangular array and reshaping it with its own
dimensions is the identity. -/
theorem reshape2_flatten {w : Nat} :
    ∀ (rows : List (List Nat)), (∀ r ∈ rows, r.length = w) →
      reshape2 rows.length w rows.flatten = rows := by
  intro rows
  induction rows with
  | nil => intro _; rfl
  | cons r rows ih =>
    intro hrect
    have hr : r.length = w := hrect r (List.mem_cons_self r rows)
    show reshape2 (rows.length + 1) w (r ++ rows.flatten) = r :: rows
    rw [reshape2, List.range_succ_eq_map, List.map_cons, List.map_map]
    have h0 : ((r ++ rows.flatten).drop (0 * w)).take w = r := by
      rw [Nat.zero_mul, List.drop_zero, ← hr, List.take_left]
    rw [h0]
    have htail : ∀ j, (((r ++ rows.flatten).drop ((j + 1) * w)).take w) =
        ((rows.flatten.drop (j * w)).take w) := by
      intro j
      rw [show (j + 1) * w = r.length + j * w by rw [hr]; ring, List.drop_append]
    congr 1
    rw [show (fun i => ((r ++ rows.flatten).drop (i * w)).take w) ∘ Nat.succ
          = fun j => ((rows.flatten.drop (j * w)).take w) from funext htail]
    exact ih (fun r' hr' => hrect r' (List.mem_cons_of_mem r hr'))

theorem flatten_length_of_rect {w : Nat} {rows : List (List Nat)}
    (hrect : ∀ r ∈ rows, r.length = w) :
    rows.flatten.length = rows.length * w := by
  rw [List.length_flatten]
  induction rows with
  | nil => simp
  | cons r rs ih =>
    simp only [List.map_cons, List.sum_cons, List.length_cons]
    rw [ih (fun r' hr' => hrect r' (List.mem_cons_of_mem r hr')),
        hrect r (List.mem_cons_self r rs)]
    ring

/-- C7: under a reliable order-preserving channel, the tuple rebuilt by
the receiving branch of `distribute_field_dofs` from the five messages
sent for task `it` equals element-for-element (shapes included) the
tuple the coordinator sent: `cell_parts[it]`,
`(dof_map[3], dof_map[3] + dof_map[2])`, and `id_map` applied to the
task's cell connectivity. -/
theorem distribute_field_dofs_roundtrip
    (econn cell_parts : List (List Nat)) (id_map : List Nat)
    (dof_maps : List (Nat × DofMapEntry)) (it w : Nat) (dm : DofMapEntry)
    (hdm : dof_maps.lookup it = some dm)
    (hrect : ∀ c ∈ cell_parts.getD it [], (econn.getD c []).length = w) :
    (send_to_task econn cell_parts id_map dof_maps it).bind recv_from_root =
      some (cell_parts.getD it [], (dm.offset, dm.offset + dm.nOwned),
            petscDofsConn econn id_map (cell_parts.getD it [])) := by
  have hconnrect : ∀ r ∈ petscDofsConn econn id_map (cell_parts.getD it []),
      r.length = w := by
    intro r hr
    obtain ⟨c, hc, rfl⟩ := List.mem_map.1 hr
    rw [List.length_map]
    exact hrect c hc
  set cells := cell_parts.getD it [] with hcells
  set conn := petscDofsConn econn id_map cells with hconn
  have hflat : conn.flatten.length = conn.length * ((conn.headD []).length) := by
    cases hc : conn with
    | nil => simp
    | cons r rs =>
      rw [← hc, flatten_length_of_rect hconnrect, hc]
      simp only [List.headD_cons]
      rw [hconnrect r (hc ▸ List.mem_cons_self r rs)]
  have hsend : send_to_task econn cell_parts id_map dof_maps it =
      some [Msg.scalar cells.length, Msg.buffer cells,
            Msg.scalar dm.offset, Msg.scalar (dm.offset + dm.nOwned),
            Msg.scalar conn.length, Msg.scalar (conn.headD []).length,
            Msg.buffer conn.flatten] := by
    rw [send_to_task, hdm]
  rw [hsend, Option.some_bind]
  have hrecv : recv_from_root [Msg.scalar cells.length, Msg.buffer cells,
      Msg.scalar dm.offset, Msg.scalar (dm.offset + dm.nOwned),
      Msg.scalar conn.length, Msg.scalar (conn.headD []).length,
      Msg.buffer conn.flatten] =
      if cells.length == cells.length && conn.flatten.length == conn.length * (conn.headD []).length
      then some (cells, (dm.offset, dm.offset + dm.nOwned),
                 reshape2 conn.length ((conn.headD []).length) conn.flatten)
      else none := rfl
  rw [hrecv, if_pos (by
    rw [Bool.and_eq_true]
    exact ⟨beq_iff_eq.2 rfl, beq_iff_eq.2 hflat⟩)]
  refine congrArg some (congrArg (Prod.mk cells) (congrArg _ ?_))
  cases hc : conn with
  | nil => simp [reshape2]
  | cons r rs =>
    rw [← hc]
    have hhead : (conn.headD []).length = w := by
      rw [hc]
      simp only [List.headD_cons]
      exact hconnrect r (hc ▸ List.mem_cons_self r rs)
    rw [hhead]
    exact reshape2_flatten conn hconnrect

/-- Witness for C7 on the two-cell, two-task example mesh. -/
theorem distribute_field_dofs_roundtrip_witness :
    ((([(0, ⟨some [0], [[1]], 2, 0⟩), (1, ⟨some [2], [], 1, 2⟩)] :
        List (Nat × DofMapEntry)).lookup 1 = some ⟨some [2], [], 1, 2⟩) ∧
      (∀ c ∈ ([[0], [1]] : List (List Nat)).getD 1 [],
        (([[0, 1], [1, 2]] : List (List Nat)).getD c []).length = 2)) ∧
    (send_to_task [[0, 1], [1, 2]] [[0], [1]] [0, 1, 2]
        [(0, ⟨some [0], [[1]], 2, 0⟩), (1, ⟨some [2], [], 1, 2⟩)] 1).bind
      recv_from_root = some ([1], (2, 3), [[1, 2]]) :=
  ⟨⟨by decide, by decide⟩, by
    have h := distribute_field_dofs_roundtrip [[0, 1], [1, 2]] [[0], [1]] [0, 1, 2]
      [(0, ⟨some [0], [[1]], 2, 0⟩), (1, ⟨some [2], [], 1, 2⟩)] 1 2
      ⟨some [2], [], 1, 2⟩ (by decide) (by decide)
    simpa using h⟩

/-! ## Association-list lookup lemmas -/

theorem lookup_cons_eq {α : Type} (k : Nat) (v : α) (t : List (Nat × α)) :
    List.lookup k ((k, v) :: t) = some v := by
  simp [List.lookup]

theorem lookup_cons_ne {α : Type} {a k : Nat} (v : α) (t : List (Nat × α))
    (h : a ≠ k) : List.lookup a ((k, v) :: t) = List.lookup a t := by
  have hb : (a == k) = false := beq_eq_false_iff_ne.2 h
  simp [List.lookup, hb]

theorem lookup_alUpdate {α : Type} (m : List (Nat × α)) (k : Nat) (f : α → α)
    (a : Nat) :
    (alUpdate m k f).lookup a = if a = k then (m.lookup k).map f else m.lookup a := by
  induction m with
  | nil => simp [alUpdate]
  | cons p m ih =>
    obtain ⟨k', v⟩ := p
    show List.lookup a ((if k' = k then (k', f v) else (k', v)) :: alUpdate m k f) = _
    by_cases hk : k' = k
    · subst hk
      rw [if_pos rfl]
      by_cases ha : a = k'
      · subst ha
        rw [lookup_cons_eq, lookup_cons_eq, if_pos rfl]
        rfl
      · rw [lookup_cons_ne _ _ ha, lookup_cons_ne _ _ ha, ih]
        simp [ha]
    · rw [if_neg hk]
      by_cases ha : a = k'
      · subst ha
        rw [lookup_cons_eq, lookup_cons_eq, if_neg hk]
      · rw [lookup_cons_ne _ _ ha, lookup_cons_ne _ _ ha, ih]
        by_cases hak : a = k
        · rw [if_pos hak, if_pos hak, lookup_cons_ne _ _ (fun he => hk he.symm)]
        · rw [if_neg hak, if_neg hak]

theorem lookup_append {α : Type} (l₁ l₂ : List (Nat × α)) (a : Nat) :
    (l₁ ++ l₂).lookup a = ((l₁.lookup a).or (l₂.lookup a)) := by
  induction l₁ with
  | nil => simp
  | cons p l₁ ih =>
    obtain ⟨k, v⟩ := p
    by_cases ha : a = k
    · subst ha
      rw [List.cons_append, lookup_cons_eq, lookup_cons_eq]
      rfl
    · rw [List.cons_append, lookup_cons_ne _ _ ha, lookup_cons_ne _ _ ha, ih]

/-- `interLookup` in terms of plain association-list lookups. -/
theorem interLookup_eq (m : List (Nat × List (Nat × List Nat))) (a b : Nat) :
    interLookup m a b = (List.lookup b ((m.lookup a).getD [])).getD [] := rfl

/-- The effect of `dictAppend` on a nested lookup. -/
theorem interLookup_dictAppend (m : List (Nat × List (Nat × List Nat)))
    (k1 k2 f a b : Nat) :
    interLookup (dictAppend m k1 k2 f) a b =
      if a = k1 ∧ b = k2 then interLookup m a b ++ [f] else interLookup m a b := by
  rw [interLookup_eq, interLookup_eq, dictAppend]
  by_cases hk1 : (m.lookup k1).isSome
  · obtain ⟨n, hn⟩ := Option.isSome_iff_exists.1 hk1
    rw [if_pos hk1, lookup_alUpdate]
    by_cases ha : a = k1
    · subst ha
      rw [if_pos rfl, hn]
      simp only [Option.map_some', Option.getD_some]
      by_cases hn2 : (n.lookup k2).isSome
      · obtain ⟨fs, hfs⟩ := Option.isSome_iff_exists.1 hn2
        rw [if_pos hn2, lookup_alUpdate]
        by_cases hb : b = k2
        · subst hb
          rw [if_pos rfl]
          simp [hfs]
        · rw [if_neg hb, if_neg (fun hc => hb hc.2)]
      · rw [if_neg hn2, lookup_append]
        by_cases hb : b = k2
        · subst hb
          rw [Option.not_isSome_iff_eq_none.1 hn2, lookup_cons_eq]
          simp
        · rw [lookup_cons_ne _ _ hb, if_neg (fun hc => hb hc.2)]
          cases hx : n.lookup b <;> rfl
    · rw [if_neg ha, if_neg (fun hc => ha hc.1)]
  · rw [if_neg hk1, lookup_append]
    by_cases ha : a = k1
    · subst ha
      rw [Option.not_isSome_iff_eq_none.1 hk1]
      by_cases hb : b = k2
      · subst hb
        simp [lookup_cons_eq]
      · rw [if_neg (fun hc => hb hc.2)]
        simp [lookup_cons_eq, lookup_cons_ne _ _ hb]
    · rw [lookup_cons_ne _ _ ha, if_neg (fun hc => ha hc.1)]
      cases hx : m.lookup a <;> rfl

/-! ## C3: `get_inter_facets` records exactly the two-task facets -/

/-- Membership after the recording fold of `get_inter_facets`. -/
theorem mem_interLookup_foldl (g0 g1 : Nat → Nat) :
    ∀ (L : List Nat) (m : List (Nat × List (Nat × List Nat))) (a b x : Nat),
      (x ∈ interLookup (L.foldl (fun m f =>
          dictAppend (dictAppend m (g0 f) (g1 f) f) (g1 f) (g0 f) f) m) a b) ↔
      (x ∈ interLookup m a b ∨ ∃ f ∈ L, x = f ∧
        ((a = g0 f ∧ b = g1 f) ∨ (a = g1 f ∧ b = g0 f))) := by
  intro L
  induction L with
  | nil => simp
  | cons f L ih =>
    intro m a b x
    rw [List.foldl_cons, ih]
    rw [interLookup_dictAppend, interLookup_dictAppend]
    constructor
    · rintro (hm | hrest)
      · split at hm
        · rcases List.mem_append.1 hm with hm | hm
          · split at hm
            · rcases List.mem_append.1 hm with hm | hm
              · exact Or.inl hm
              · refine Or.inr ⟨f, List.mem_cons_self f L, List.mem_singleton.1 hm, ?_⟩
                tauto
            · exact Or.inl hm
          · refine Or.inr ⟨f, List.mem_cons_self f L, List.mem_singleton.1 hm, ?_⟩
            tauto
        · split at hm
          · rcases List.mem_append.1 hm with hm | hm
            · exact Or.inl hm
            · refine Or.inr ⟨f, List.mem_cons_self f L, List.mem_singleton.1 hm, ?_⟩
              tauto
          · exact Or.inl hm
      · obtain ⟨f', hf', hx, hp⟩ := hrest
        exact Or.inr ⟨f', List.mem_cons_of_mem f hf', hx, hp⟩
    · rintro (hm | ⟨f', hf', hx, hp⟩)
      · refine Or.inl ?_
        split
        · refine List.mem_append.2 (Or.inl ?_)
          split
          · exact List.mem_append.2 (Or.inl hm)
          · exact hm
        · split
          · exact List.mem_append.2 (Or.inl hm)
          · exact hm
      · rcases List.mem_cons.1 hf' with rfl | hf'
        · subst hx
          refine Or.inl ?_
          rcases hp with ⟨h1, h2⟩ | ⟨h1, h2⟩
          · split
            · refine List.mem_append.2 (Or.inl ?_)
              rw [if_pos ⟨h1, h2⟩]
              exact List.mem_append.2 (Or.inr (List.mem_singleton.2 rfl))
            · rw [if_pos ⟨h1, h2⟩]
              exact List.mem_append.2 (Or.inr (List.mem_singleton.2 rfl))
          · rw [if_pos ⟨h1, h2⟩]
            exact List.mem_append.2 (Or.inr (List.mem_singleton.2 rfl))
        · exact Or.inr ⟨f', hf', hx, hp⟩

/-- A facet with exactly two bordering cells borders the two cells at
slots `offsets[f]` and `offsets[f] + 1` of the index array. -/
theorem facetCells_pair {cfc : CMeshConn} {f : Nat}
    (hc : facetCellCount cfc f = 2)
    (hle : cfc.offsets.getD (f + 1) 0 ≤ cfc.indices.length) :
    facetCells cfc f =
      [cfc.indices.getD (cfc.offsets.getD f 0) 0,
       cfc.indices.getD (cfc.offsets.getD f 0 + 1) 0] := by
  have hoff : cfc.offsets.getD (f + 1) 0 = cfc.offsets.getD f 0 + 2 := by
    unfold facetCellCount at hc
    omega
  have h1 : cfc.offsets.getD f 0 < cfc.indices.length := by omega
  have h2 : cfc.offsets.getD f 0 + 1 < cfc.indices.length := by omega
  rw [facetCells, hc, List.drop_eq_getElem_cons h1, List.drop_eq_getElem_cons h2]
  rw [List.getD_eq_getElem _ _ h1, List.getD_eq_getElem _ _ h2]
  rfl

/-- C3: `get_inter_facets` records facet `f` under `(t0, t1)` iff `f` has
exactly two bordering cells whose tasks are `{t0, t1}` with `t0 ≠ t1`;
in particular surface facets and one-task facets are never recorded, and
the map is symmetric. -/
theorem get_inter_facets_characterization (cfc : CMeshConn) (cell_tasks : List Nat)
    (hcnt : ∀ f, f < cfc.num → facetCellCount cfc f = 1 ∨ facetCellCount cfc f = 2)
    (hoff : ∀ f, f < cfc.num →
      cfc.offsets.getD f 0 ≤ cfc.offsets.getD (f + 1) 0 ∧
      cfc.offsets.getD (f + 1) 0 ≤ cfc.indices.length) :
    ∀ f t0 t1,
      (f ∈ interLookup (get_inter_facets cfc cell_tasks) t0 t1 ↔
        (f < cfc.num ∧ ∃ c0 c1, facetCells cfc f = [c0, c1] ∧
          cell_tasks.getD c0 0 ≠ cell_tasks.getD c1 0 ∧
          ((t0 = cell_tasks.getD c0 0 ∧ t1 = cell_tasks.getD c1 0) ∨
           (t0 = cell_tasks.getD c1 0 ∧ t1 = cell_tasks.getD c0 0)))) ∧
      (f ∈ interLookup (get_inter_facets cfc cell_tasks) t0 t1 ↔
        f ∈ interLookup (get_inter_facets cfc cell_tasks) t1 t0) := by
  have hmain : ∀ f t0 t1,
      f ∈ interLookup (get_inter_facets cfc cell_tasks) t0 t1 ↔
        (f < cfc.num ∧ ∃ c0 c1, facetCells cfc f = [c0, c1] ∧
          cell_tasks.getD c0 0 ≠ cell_tasks.getD c1 0 ∧
          ((t0 = cell_tasks.getD c0 0 ∧ t1 = cell_tasks.getD c1 0) ∨
           (t0 = cell_tasks.getD c1 0 ∧ t1 = cell_tasks.getD c0 0))) := by
    intro f t0 t1
    have hunfold : get_inter_facets cfc cell_tasks =
        ((setdiff (List.range cfc.num) (get_surface_facets cfc)).filter (fun f =>
          !((cfc.indices.map (fun c => cell_tasks.getD c 0)).getD (cfc.offsets.getD f 0) 0
            == (cfc.indices.map (fun c => cell_tasks.getD c 0)).getD
                 (cfc.offsets.getD f 0 + 1) 0))).foldl
          (fun m f => dictAppend (dictAppend m
            ((cfc.indices.map (fun c => cell_tasks.getD c 0)).getD (cfc.offsets.getD f 0) 0)
            ((cfc.indices.map (fun c => cell_tasks.getD c 0)).getD (cfc.offsets.getD f 0 + 1) 0) f)
            ((cfc.indices.map (fun c => cell_tasks.getD c 0)).getD (cfc.offsets.getD f 0 + 1) 0)
            ((cfc.indices.map (fun c => cell_tasks.getD c 0)).getD (cfc.offsets.getD f 0) 0) f)
          [] := rfl
    rw [hunfold, mem_interLookup_foldl]
    simp only [interLookup_eq, List.lookup_nil, Option.getD_none, List.lookup_nil,
               List.not_mem_nil, false_or]
    constructor
    · rintro ⟨f', hf', rfl, hp⟩
      have hmem := List.mem_filter.1 hf'
      have hinner := mem_setdiff.1 hmem.1
      have hflt : f < cfc.num := List.mem_range.1 hinner.1
      have hnsurf : facetCellCount cfc f ≠ 1 := by
        intro hone
        exact hinner.2 (List.mem_filter.2 ⟨List.mem_range.2 hflt, by simp [hone]⟩)
      have hc2 : facetCellCount cfc f = 2 := (hcnt f hflt).resolve_left hnsurf
      have hb := hoff f hflt
      have h1 : cfc.offsets.getD f 0 < cfc.indices.length := by
        unfold facetCellCount at hc2; omega
      have h2 : cfc.offsets.getD f 0 + 1 < cfc.indices.length := by
        unfold facetCellCount at hc2; omega
      have hg0 : (cfc.indices.map (fun c => cell_tasks.getD c 0)).getD
          (cfc.offsets.getD f 0) 0 =
          cell_tasks.getD (cfc.indices.getD (cfc.offsets.getD f 0) 0) 0 := by
        rw [List.getD_eq_getElem _ _ (by simpa using h1), List.getD_eq_getElem _ _ h1]
        simp
      have hg1 : (cfc.indices.map (fun c => cell_tasks.getD c 0)).getD
          (cfc.offsets.getD f 0 + 1) 0 =
          cell_tasks.getD (cfc.indices.getD (cfc.offsets.getD f 0 + 1) 0) 0 := by
        rw [List.getD_eq_getElem _ _ (by simpa using h2), List.getD_eq_getElem _ _ h2]
        simp
      have hdiff : cell_tasks.getD (cfc.indices.getD (cfc.offsets.getD f 0) 0) 0 ≠
          cell_tasks.getD (cfc.indices.getD (cfc.offsets.getD f 0 + 1) 0) 0 := by
        have := hmem.2
        rw [hg0, hg1] at this
        simpa using this
      rw [hg0, hg1] at hp
      exact ⟨hflt, _, _, facetCells_pair hc2 hb.2, hdiff, hp⟩
    · rintro ⟨hflt, c0, c1, hcells, hdiff, hp⟩
      have hb := hoff f hflt
      have hc2 : facetCellCount cfc f = 2 := by
        have hlen := congrArg List.length hcells
        rw [facetCells, List.length_take, List.length_drop] at hlen
        simp only [List.length_cons, List.length_nil] at hlen
        unfold facetCellCount at hlen ⊢
        omega
      have h1 : cfc.offsets.getD f 0 < cfc.indices.length := by
        unfold facetCellCount at hc2; omega
      have h2 : cfc.offsets.getD f 0 + 1 < cfc.indices.length := by
        unfold facetCellCount at hc2; omega
      have hpair := facetCells_pair hc2 hb.2
      rw [hcells] at hpair
      have hc0 : c0 = cfc.indices.getD (cfc.offsets.getD f 0) 0 := by
        injection hpair with h _
      have hc1 : c1 = cfc.indices.getD (cfc.offsets.getD f 0 + 1) 0 := by
        injection hpair with _ h
        injection h with h _
      have hg0 : (cfc.indices.map (fun c => cell_tasks.getD c 0)).getD
          (cfc.offsets.getD f 0) 0 = cell_tasks.getD c0 0 := by
        rw [List.getD_eq_getElem _ _ (by simpa using h1), hc0, List.getD_eq_getElem _ _ h1]
        simp
      have hg1 : (cfc.indices.map (fun c => cell_tasks.getD c 0)).getD
          (cfc.offsets.getD f 0 + 1) 0 = cell_tasks.getD c1 0 := by
        rw [List.getD_eq_getElem _ _ (by simpa using h2), hc1, List.getD_eq_getElem _ _ h2]
        simp
      refine ⟨f, ?_, rfl, ?_⟩
      · refine List.mem_filter.2 ⟨mem_setdiff.2 ⟨List.mem_range.2 hflt, ?_⟩, ?_⟩
        · intro hsurf
          have := (List.mem_filter.1 hsurf).2
          simp only [beq_iff_eq] at this
          omega
        · rw [hg0, hg1]
          simpa using hdiff
      · rw [hg0, hg1]
        exact hp
  intro f t0 t1
  refine ⟨hmain f t0 t1, ?_⟩
  rw [hmain f t0 t1, hmain f t1 t0]
  constructor
  · rintro ⟨hf, c0, c1, hc, hd, hp⟩
    exact ⟨hf, c0, c1, hc, hd, by tauto⟩
  · rintro ⟨hf, c0, c1, hc, hd, hp⟩
    exact ⟨hf, c0, c1, hc, hd, by tauto⟩

/-- Witness for C3 on a two-cell mesh with one shared facet: facet `1`
is recorded under `(0,1)` and `(1,0)`. -/
theorem get_inter_facets_characterization_witness :
    ((∀ f, f < 3 → facetCellCount ⟨3, [0, 1, 3, 4], [0, 0, 1, 1]⟩ f = 1 ∨
        facetCellCount ⟨3, [0, 1, 3, 4], [0, 0, 1, 1]⟩ f = 2) ∧
      (∀ f, f < 3 →
        (⟨3, [0, 1, 3, 4], [0, 0, 1, 1]⟩ : CMeshConn).offsets.getD f 0 ≤
          (⟨3, [0, 1, 3, 4], [0, 0, 1, 1]⟩ : CMeshConn).offsets.getD (f + 1) 0 ∧
        (⟨3, [0, 1, 3, 4], [0, 0, 1, 1]⟩ : CMeshConn).offsets.getD (f + 1) 0 ≤ 4)) ∧
    (1 ∈ interLookup (get_inter_facets ⟨3, [0, 1, 3, 4], [0, 0, 1, 1]⟩ [0, 1]) 0 1 ↔
      1 ∈ interLookup (get_inter_facets ⟨3, [0, 1, 3, 4], [0, 0, 1, 1]⟩ [0, 1]) 1 0) :=
  ⟨⟨by decide, by decide⟩,
   (get_inter_facets_characterization ⟨3, [0, 1, 3, 4], [0, 0, 1, 1]⟩ [0, 1]
     (by decide) (by decide) 1 0 1).2⟩

/-- Witness for C4 (amended) on a concrete matrix with stored diagonals. -/
theorem apply_ebc_to_matrix_identity_rows_witness :
    (([0, 2, 3] : List Nat).Sorted (· ≤ ·) ∧ ([0, 1] : List Nat).Nodup) ∧
    rowNonzeroCols (apply_ebc_to_matrix ⟨[0, 2, 3], [0, 1, 1], [4, 5, 6]⟩ [0, 1]) 0 = [0] ∧
    rowNonzeroVals (apply_ebc_to_matrix ⟨[0, 2, 3], [0, 1, 1], [4, 5, 6]⟩ [0, 1]) 0 = [1] :=
  ⟨⟨by decide, by decide⟩,
   ((apply_ebc_to_matrix_identity_rows ⟨[0, 2, 3], [0, 1, 1], [4, 5, 6]⟩ [0, 1]
      (by decide) (by decide) (by decide) (by decide) (by decide)) 0 (by decide)).2⟩

/-! ## Association-list machinery for the DOF-map dictionary -/

theorem lookup_isSome_iff_mem_keys {α : Type} (m : List (Nat × α)) (k : Nat) :
    (m.lookup k).isSome ↔ k ∈ alKeys m := by
  induction m with
  | nil => simp [alKeys]
  | cons p m ih =>
    obtain ⟨k', v⟩ := p
    by_cases hk : k = k'
    · subst hk
      rw [lookup_cons_eq]
      simp [alKeys]
    · rw [lookup_cons_ne _ _ hk]
      rw [ih]
      simp [alKeys, hk]

theorem mem_of_lookup_eq_some {α : Type} {m : List (Nat × α)} {k : Nat} {v : α}
    (h : m.lookup k = some v) : (k, v) ∈ m := by
  induction m with
  | nil => simp [List.lookup] at h
  | cons p m ih =>
    obtain ⟨k', w⟩ := p
    by_cases hk : k = k'
    · subst hk
      rw [lookup_cons_eq] at h
      injection h with h
      subst h
      exact List.mem_cons_self _ _
    · rw [lookup_cons_ne _ _ hk] at h
      exact List.mem_cons_of_mem _ (ih h)

theorem lookup_eq_some_of_mem {α : Type} {m : List (Nat × α)} {k : Nat} {v : α}
    (hnd : (alKeys m).Nodup) (h : (k, v) ∈ m) : m.lookup k = some v := by
  induction m with
  | nil => simp at h
  | cons p m ih =>
    obtain ⟨k', w⟩ := p
    rw [alKeys, List.map_cons, List.nodup_cons] at hnd
    rcases List.mem_cons.1 h with he | hm
    · injection he with h1 h2
      subst h1; subst h2
      exact lookup_cons_eq _ _ _
    · have hk : k ≠ k' := by
        rintro rfl
        exact hnd.1 (List.mem_map.2 ⟨(k, v), hm, rfl⟩)
      rw [lookup_cons_ne _ _ hk]
      exact ih hnd.2 hm

theorem alKeys_alUpdate {α : Type} (m : List (Nat × α)) (k : Nat) (f : α → α) :
    alKeys (alUpdate m k f) = alKeys m := by
  induction m with
  | nil => rfl
  | cons p m ih =>
    show alKeys ((if p.1 = k then (p.1, f p.2) else p) :: alUpdate m k f) = _
    by_cases hp : p.1 = k <;> simp [alKeys, hp] at ih ⊢ <;> exact ih

theorem alUpdate_of_not_mem {α : Type} {m : List (Nat × α)} {k : Nat} (f : α → α)
    (h : k ∉ alKeys m) : alUpdate m k f = m := by
  induction m with
  | nil => rfl
  | cons p m ih =>
    simp only [alKeys, List.map_cons, List.mem_cons] at h
    push_neg at h
    show (if p.1 = k then (p.1, f p.2) else p) :: alUpdate m k f = p :: m
    rw [if_neg (fun he => h.1 he.symm), ih (by simpa [alKeys] using h.2)]

theorem allOwned_cons (k : Nat) (e : DofMapEntry) (m : List (Nat × DofMapEntry)) :
    allOwned ((k, e) :: m) = entryOwned e ++ allOwned m := rfl

theorem allOwned_append (m l : List (Nat × DofMapEntry)) :
    allOwned (m ++ l) = allOwned m ++ allOwned l := by
  simp [allOwned]

theorem alKeys_alSetdefault {α : Type} (m : List (Nat × α)) (k : Nat) (d : α) :
    alKeys (alSetdefault m k d) = if k ∈ alKeys m then alKeys m else alKeys m ++ [k] := by
  rw [alSetdefault]
  by_cases h : (m.lookup k).isSome
  · rw [if_pos h, if_pos ((lookup_isSome_iff_mem_keys m k).1 h)]
  · rw [if_neg h, if_neg (fun hm => h ((lookup_isSome_iff_mem_keys m k).2 hm))]
    simp [alKeys]

theorem nodup_alKeys_alSetdefault {α : Type} {m : List (Nat × α)} (k : Nat) (d : α)
    (h : (alKeys m).Nodup) : (alKeys (alSetdefault m k d)).Nodup := by
  rw [alKeys_alSetdefault]
  by_cases hk : k ∈ alKeys m
  · rwa [if_pos hk]
  · rw [if_neg hk]
    simp [List.nodup_append, h, hk]

theorem count_allOwned_alSetdefault (m : List (Nat × DofMapEntry)) (k : Nat)
    (x : Nat) :
    (allOwned (alSetdefault m k initEntry)).count x = (allOwned m).count x := by
  rw [alSetdefault]
  by_cases h : (m.lookup k).isSome
  · rw [if_pos h]
  · rw [if_neg h, allOwned_append]
    simp [allOwned, entryOwned, initEntry]

theorem lookup_alSetdefault_of_isSome {α : Type} {m : List (Nat × α)} {k : Nat}
    (d : α) (a : Nat) (h : (m.lookup k).isSome) :
    (alSetdefault m k d).lookup a = m.lookup a := by
  rw [alSetdefault, if_pos h]

theorem lookup_alSetdefault_of_none {α : Type} {m : List (Nat × α)} {k : Nat}
    (d : α) (a : Nat) (h : ¬(m.lookup k).isSome) :
    (alSetdefault m k d).lookup a =
      if a = k then some d else m.lookup a := by
  rw [alSetdefault, if_neg h, lookup_append]
  by_cases ha : a = k
  · subst ha
    rw [Option.not_isSome_iff_eq_none.1 h, lookup_cons_eq, if_pos rfl]
    rfl
  · rw [lookup_cons_ne _ _ ha, if_neg ha]
    cases m.lookup a <;> rfl

theorem alGetD_alSetdefault {α : Type} (m : List (Nat × α)) (k a : Nat) (d : α) :
    alGetD (alSetdefault m k d) a d = alGetD m a d := by
  by_cases h : (m.lookup k).isSome
  · rw [alGetD, lookup_alSetdefault_of_isSome d a h, alGetD]
  · rw [alGetD, lookup_alSetdefault_of_none d a h, alGetD]
    by_cases ha : a = k
    · subst ha
      rw [if_pos rfl, Option.not_isSome_iff_eq_none.1 h]
      rfl
    · rw [if_neg ha]

theorem mem_keys_alSetdefault_self {α : Type} (m : List (Nat × α)) (k : Nat) (d : α) :
    k ∈ alKeys (alSetdefault m k d) := by
  rw [alKeys_alSetdefault]
  by_cases hk : k ∈ alKeys m
  · rwa [if_pos hk]
  · rw [if_neg hk]
    simp

theorem alGetD_alUpdate_eq {α : Type} (m : List (Nat × α)) (k : Nat) (f : α → α)
    (d : α) :
    alGetD (alUpdate m k f) k d = ((m.lookup k).map f).getD d := by
  rw [alGetD, lookup_alUpdate, if_pos rfl]

theorem alGetD_alUpdate_ne {α : Type} (m : List (Nat × α)) {k a : Nat} (f : α → α)
    (d : α) (h : a ≠ k) : alGetD (alUpdate m k f) a d = alGetD m a d := by
  rw [alGetD, lookup_alUpdate, if_neg h, alGetD]

theorem alGetD_eq_of_mem {α : Type} {m : List (Nat × α)} {k : Nat} {e : α}
    (hnd : (alKeys m).Nodup) (h : (k, e) ∈ m) (d : α) : alGetD m k d = e := by
  rw [alGetD, lookup_eq_some_of_mem hnd h]
  rfl

theorem mem_alSetdefault {α : Type} {m : List (Nat × α)} {k : Nat} {d : α}
    {p : Nat × α} (h : p ∈ alSetdefault m k d) : p ∈ m ∨ p = (k, d) := by
  rw [alSetdefault] at h
  split at h
  · exact Or.inl h
  · rcases List.mem_append.1 h with h | h
    · exact Or.inl h
    · exact Or.inr (List.mem_singleton.1 h)

theorem mem_alUpdate {α : Type} {m : List (Nat × α)} {k : Nat} {f : α → α}
    {p : Nat × α} (h : p ∈ alUpdate m k f) :
    (p ∈ m ∧ p.1 ≠ k) ∨ (∃ e, (k, e) ∈ m ∧ p = (k, f e)) := by
  obtain ⟨q, hq, hpq⟩ := List.mem_map.1 h
  by_cases hk : q.1 = k
  · refine Or.inr ⟨q.2, ?_, ?_⟩
    · rw [← hk]; exact hq
    · rw [← hpq, if_pos hk, hk]
  · rw [← hpq, if_neg hk]
    exact Or.inl ⟨hq, hk⟩

theorem count_nodup {l : List Nat} (h : l.Nodup) (x : Nat) :
    l.count x = if x ∈ l then 1 else 0 := by
  by_cases hx : x ∈ l
  · rw [if_pos hx]
    exact List.count_eq_one_of_mem h hx
  · rw [if_neg hx]
    exact List.count_eq_zero_of_not_mem hx

/-- Counting `allOwned` after updating entry `k` in place, when the
update appends exactly `extra` to that entry's owned dofs. -/
theorem count_allOwned_alUpdate (m : List (Nat × DofMapEntry)) (k : Nat)
    (f : DofMapEntry → DofMapEntry) (extra : List Nat)
    (hnd : (alKeys m).Nodup) (hk : k ∈ alKeys m)
    (hf : ∀ e, (k, e) ∈ m → ∀ x,
      (entryOwned (f e)).count x = (entryOwned e).count x + extra.count x)
    (x : Nat) :
    (allOwned (alUpdate m k f)).count x = (allOwned m).count x + extra.count x := by
  induction m with
  | nil => simp [alKeys] at hk
  | cons p m ih =>
    obtain ⟨k', e⟩ := p
    rw [alKeys, List.map_cons, List.nodup_cons] at hnd
    have hcons : alUpdate ((k', e) :: m) k f =
        (if k' = k then (k', f e) else (k', e)) :: alUpdate m k f := rfl
    by_cases hk' : k' = k
    · subst hk'
      rw [hcons, if_pos rfl,
          alUpdate_of_not_mem f (by simpa [alKeys] using hnd.1), allOwned_cons,
          allOwned_cons, List.count_append, List.count_append,
          hf e (List.mem_cons_self _ _) x]
      omega
    · rw [hcons, if_neg hk',
          allOwned_cons, allOwned_cons, List.count_append, List.count_append, ih hnd.2
        (by
          rcases List.mem_cons.1 (show k ∈ k' :: alKeys m by simpa [alKeys] using hk)
            with he | hm
          · exact absurd he.symm hk'
          · exact hm)
        (fun e' he' hx => hf e' (List.mem_cons_of_mem _ he') hx)]
      omega

theorem entryOwned_addBlock (e : DofMapEntry) (b : List Nat) :
    entryOwned (addBlock e b) = entryOwned e ++ b := by
  simp [entryOwned, addBlock]

theorem entryOwned_setInner (e : DofMapEntry) (inn : List Nat)
    (he : e.inner = none) :
    entryOwned { e with inner := some inn, nOwned := e.nOwned + inn.length } =
      inn ++ entryOwned e := by
  simp [entryOwned, he]

/-- Bookkeeping (`nOwned` is the owned length, `offset` is 0) survives
an in-place update that itself respects it. -/
theorem bookkeeping_alUpdate {m : List (Nat × DofMapEntry)} {k : Nat}
    {f : DofMapEntry → DofMapEntry}
    (hall : ∀ p ∈ m, p.2.nOwned = (entryOwned p.2).length ∧ p.2.offset = 0)
    (hf : ∀ e, (k, e) ∈ m →
      (f e).nOwned = (entryOwned (f e)).length ∧ (f e).offset = 0) :
    ∀ p ∈ alUpdate m k f, p.2.nOwned = (entryOwned p.2).length ∧ p.2.offset = 0 := by
  intro p hp
  rcases mem_alUpdate hp with ⟨hm, _⟩ | ⟨e, he, rfl⟩
  · exact hall p hm
  · exact hf e he

theorem bookkeeping_alSetdefault {m : List (Nat × DofMapEntry)} {k : Nat}
    (hall : ∀ p ∈ m, p.2.nOwned = (entryOwned p.2).length ∧ p.2.offset = 0) :
    ∀ p ∈ alSetdefault m k initEntry,
      p.2.nOwned = (entryOwned p.2).length ∧ p.2.offset = 0 := by
  intro p hp
  rcases mem_alSetdefault hp with hm | rfl
  · exact hall p hm
  · exact ⟨rfl, rfl⟩

/-! ## Claim-phase invariant preservation -/

theorem claimInv_alSetdefault {n_nod : Nat} {st : ClaimState} (k c i : Nat)
    (hinv : claimInv n_nod st) :
    claimInv n_nod ⟨st.idMap, alSetdefault st.dofMaps k initEntry, c, i⟩ := by
  obtain ⟨hlen, hvals, hcount, hbook, hknd⟩ := hinv
  exact ⟨hlen, hvals,
    fun d => by rw [count_allOwned_alSetdefault]; exact hcount d,
    bookkeeping_alSetdefault hbook, nodup_alKeys_alSetdefault k initEntry hknd⟩

/-- Claiming a fresh block `new` of unclaimed dofs for task `k` keeps the
claim invariant. -/
theorem claimInv_claimBlock {n_nod : Nat} {st : ClaimState} {k : Nat}
    {new : List Nat} (c i : Nat)
    (hinv : claimInv n_nod st) (hk : k ∈ alKeys st.dofMaps)
    (hnd : new.Nodup) (hnew : ∀ d ∈ new, st.idMap.getD d 0 = 0 ∧ d < n_nod) :
    claimInv n_nod ⟨markClaimed st.idMap new,
      alUpdate st.dofMaps k (fun e => addBlock e new), c, i⟩ := by
  obtain ⟨hlen, hvals, hcount, hbook, hknd⟩ := hinv
  refine ⟨by rw [length_markClaimed]; exact hlen, ?_, ?_, ?_, ?_⟩
  · intro d
    rw [getD_markClaimed]
    split
    · exact Or.inr rfl
    · exact hvals d
  · intro d
    rw [count_allOwned_alUpdate st.dofMaps k _ new hknd hk
      (fun e _ x => by rw [entryOwned_addBlock, List.count_append]),
      getD_markClaimed, hcount d, count_nodup hnd]
    by_cases hd : d ∈ new
    · obtain ⟨h0, hdn⟩ := hnew d hd
      rw [h0]
      have hdl : d < st.idMap.length := by omega
      simp [hd, hdl]
    · simp [hd]
  · show ∀ p ∈ alUpdate st.dofMaps k (fun e => addBlock e new),
        p.2.nOwned = (entryOwned p.2).length ∧ p.2.offset = 0
    refine bookkeeping_alUpdate hbook ?_
    intro e he
    have hb1 : e.nOwned = (entryOwned e).length := (hbook (k, e) he).1
    have hb2 : e.offset = 0 := (hbook (k, e) he).2
    constructor
    · show e.nOwned + new.length = _
      rw [entryOwned_addBlock, List.length_append, hb1]
    · exact hb2
  · rw [alKeys_alUpdate]
    exact hknd

/-- Claiming the inner dofs `inn` for task `k` (whose inner list is still
unset) keeps the claim invariant. -/
theorem claimInv_claimInner {n_nod : Nat} {st : ClaimState} {k : Nat}
    {inn : List Nat} (c i : Nat)
    (hinv : claimInv n_nod st) (hk : k ∈ alKeys st.dofMaps)
    (hinner : (alGetD st.dofMaps k initEntry).inner = none)
    (hnd : inn.Nodup) (hnew : ∀ d ∈ inn, st.idMap.getD d 0 = 0 ∧ d < n_nod) :
    claimInv n_nod ⟨markClaimed st.idMap inn,
      alUpdate st.dofMaps k (fun e =>
        { e with inner := some inn, nOwned := e.nOwned + inn.length }), c, i⟩ := by
  obtain ⟨hlen, hvals, hcount, hbook, hknd⟩ := hinv
  have hmem_inner : ∀ e, (k, e) ∈ st.dofMaps → e.inner = none := by
    intro e he
    rw [← alGetD_eq_of_mem hknd he initEntry]
    exact hinner
  refine ⟨by rw [length_markClaimed]; exact hlen, ?_, ?_, ?_, ?_⟩
  · intro d
    rw [getD_markClaimed]
    split
    · exact Or.inr rfl
    · exact hvals d
  · intro d
    rw [count_allOwned_alUpdate st.dofMaps k _ inn hknd hk
      (fun e he x => by
        rw [entryOwned_setInner e inn (hmem_inner e he), List.count_append]
        omega),
      getD_markClaimed, hcount d, count_nodup hnd]
    by_cases hd : d ∈ inn
    · obtain ⟨h0, hdn⟩ := hnew d hd
      rw [h0]
      have hdl : d < st.idMap.length := by omega
      simp [hd, hdl]
    · simp [hd]
  · show ∀ p ∈ alUpdate st.dofMaps k (fun e =>
        { e with inner := some inn, nOwned := e.nOwned + inn.length }),
        p.2.nOwned = (entryOwned p.2).length ∧ p.2.offset = 0
    refine bookkeeping_alUpdate hbook ?_
    intro e he
    have hb1 : e.nOwned = (entryOwned e).length := (hbook (k, e) he).1
    have hb2 : e.offset = 0 := (hbook (k, e) he).2
    constructor
    · show e.nOwned + inn.length = _
      rw [entryOwned_setInner e inn (hmem_inner e he), List.length_append, hb1]
      omega
    · exact hb2
  · rw [alKeys_alUpdate]
    exact hknd

/-- Every dof in a row fetched from `facet_dofs` (or `econn`) is bounded. -/
theorem row_getD_bound {rows : List (List Nat)} {n_nod : Nat}
    (hb : ∀ row ∈ rows, ∀ d ∈ row, d < n_nod) (f d : Nat)
    (hd : d ∈ rows.getD f []) : d < n_nod := by
  by_cases hf : f < rows.length
  · refine hb _ ?_ d hd
    rw [List.getD_eq_getElem _ _ hf] at hd ⊢
    exact List.getElem_mem hf
  · rw [List.getD_eq_getElem?_getD, List.getElem?_eq_none (le_of_not_lt hf)] at hd
    simp at hd

/-- Everything `claimHalf` guarantees: the invariant survives, claimed
flags only grow, every dof of the half ends claimed, and the key set and
the inner lists of the dictionary are untouched. -/
theorem claimHalf_spec {n_nod : Nat} (k : Nat) (st : ClaimState)
    (half : List (List Nat))
    (hinv : claimInv n_nod st) (hk : k ∈ alKeys st.dofMaps)
    (hbound : ∀ d ∈ half.flatten, d < n_nod) :
    claimInv n_nod (claimHalf k st half) ∧
    (∀ d, st.idMap.getD d 0 = 1 → (claimHalf k st half).idMap.getD d 0 = 1) ∧
    (∀ d ∈ half.flatten, (claimHalf k st half).idMap.getD d 0 = 1) ∧
    alKeys (claimHalf k st half).dofMaps = alKeys st.dofMaps ∧
    (∀ t, (alGetD (claimHalf k st half).dofMaps t initEntry).inner =
      (alGetD st.dofMaps t initEntry).inner) := by
  rw [claimHalf]
  set dx := uniq half.flatten with hdx
  set new := dx.filter (fun d => st.idMap.getD d 0 == 0) with hnew
  have hnewprop : ∀ d ∈ new, st.idMap.getD d 0 = 0 ∧ d < n_nod := by
    intro d hd
    have := List.mem_filter.1 hd
    refine ⟨by simpa using this.2, hbound d (mem_uniq.1 this.1)⟩
  by_cases hempty : new.isEmpty
  · rw [if_pos hempty]
    refine ⟨hinv, fun d h => h, ?_, rfl, fun t => rfl⟩
    intro d hd
    have hdx' : d ∈ dx := mem_uniq.2 hd
    rcases hinv.2.1 d with h0 | h1
    · exfalso
      have : d ∈ new := List.mem_filter.2 ⟨hdx', by simpa using h0⟩
      rw [List.isEmpty_iff] at hempty
      rw [hempty] at this
      simp at this
    · exact h1
  · rw [if_neg hempty]
    have hinv' := claimInv_claimBlock (st.count + new.length)
      (st.interCount + new.length) hinv hk ((nodup_uniq half.flatten).filter _)
      hnewprop
    refine ⟨hinv', ?_, ?_, ?_, ?_⟩
    · intro d h
      exact markClaimed_mono h
    · intro d hd
      have hdx' : d ∈ dx := mem_uniq.2 hd
      rcases hinv.2.1 d with h0 | h1
      · have hdn : d ∈ new := List.mem_filter.2 ⟨hdx', by simpa using h0⟩
        have hdl : d < st.idMap.length := by
          rw [hinv.1]
          exact (hnewprop d hdn).2
        exact getD_markClaimed_of_mem hdn hdl
      · exact markClaimed_mono h1
    · show alKeys (alUpdate st.dofMaps k (fun e => addBlock e new)) = alKeys st.dofMaps
      exact alKeys_alUpdate _ _ _
    · intro t
      show (alGetD (alUpdate st.dofMaps k (fun e => addBlock e new)) t initEntry).inner =
        (alGetD st.dofMaps t initEntry).inner
      by_cases ht : t = k
      · subst ht
        rw [alGetD_alUpdate_eq]
        cases hl : st.dofMaps.lookup t with
        | none => rw [alGetD, hl]; rfl
        | some e => rw [alGetD, hl]; rfl
      · rw [alGetD_alUpdate_ne _ _ _ ht]

theorem mem_alKeys_alSetdefault {α : Type} {m : List (Nat × α)} {t : Nat}
    (k : Nat) (d : α) (ht : t ∈ alKeys m) : t ∈ alKeys (alSetdefault m k d) := by
  rw [alKeys_alSetdefault]
  split
  · exact ht
  · exact List.mem_append_left _ ht

/-- Everything `processNeighbor` guarantees for one `(ir, ic)` pair. -/
theorem processNeighbor_spec {n_nod : Nat} {facet_dofs : List (List Nat)}
    (ir : Nat) (hbF : ∀ row ∈ facet_dofs, ∀ d ∈ row, d < n_nod)
    (st : ClaimState) (p : Nat × List Nat)
    (hinv : claimInv n_nod st) (hir : ir ∈ alKeys st.dofMaps) :
    claimInv n_nod (processNeighbor facet_dofs ir st p).1 ∧
    (∀ d, st.idMap.getD d 0 = 1 →
      (processNeighbor facet_dofs ir st p).1.idMap.getD d 0 = 1) ∧
    (∀ d ∈ (processNeighbor facet_dofs ir st p).2,
      (processNeighbor facet_dofs ir st p).1.idMap.getD d 0 = 1) ∧
    (∀ t, t ∈ alKeys st.dofMaps →
      t ∈ alKeys (processNeighbor facet_dofs ir st p).1.dofMaps) ∧
    (∀ t, (alGetD (processNeighbor facet_dofs ir st p).1.dofMaps t initEntry).inner =
      (alGetD st.dofMaps t initEntry).inner) := by
  obtain ⟨ic, facets⟩ := p
  set st0 : ClaimState :=
    ⟨st.idMap, alSetdefault st.dofMaps ic initEntry, st.count, st.interCount⟩ with hst0
  set econnS := facets.map (fun f => facet_dofs.getD f []) with heconnS
  set ii2 := max (econnS.length / 2) 1 with hii2
  have hrfl : processNeighbor facet_dofs ir st (ic, facets) =
      (claimHalf ic (claimHalf ir st0 (econnS.take ii2)) (econnS.drop ii2),
       uniq econnS.flatten) := rfl
  have hboundS : ∀ d ∈ econnS.flatten, d < n_nod := by
    intro d hd
    obtain ⟨row, hrow, hdrow⟩ := List.mem_flatten.1 hd
    obtain ⟨f, _, rfl⟩ := List.mem_map.1 hrow
    exact row_getD_bound hbF f d hdrow
  have hbt : ∀ d ∈ (econnS.take ii2).flatten, d < n_nod := by
    intro d hd
    obtain ⟨row, hrow, hdrow⟩ := List.mem_flatten.1 hd
    exact hboundS d (List.mem_flatten.2 ⟨row, (List.take_sublist _ _).subset hrow, hdrow⟩)
  have hbd : ∀ d ∈ (econnS.drop ii2).flatten, d < n_nod := by
    intro d hd
    obtain ⟨row, hrow, hdrow⟩ := List.mem_flatten.1 hd
    exact hboundS d (List.mem_flatten.2 ⟨row, (List.drop_sublist _ _).subset hrow, hdrow⟩)
  have hinv0 : claimInv n_nod st0 := claimInv_alSetdefault ic st.count st.interCount hinv
  have hir0 : ir ∈ alKeys st0.dofMaps := mem_alKeys_alSetdefault ic initEntry hir
  obtain ⟨hinv1, hmono1, hclaim1, hkeys1, hinner1⟩ :=
    claimHalf_spec ir st0 (econnS.take ii2) hinv0 hir0 hbt
  have hic1 : ic ∈ alKeys (claimHalf ir st0 (econnS.take ii2)).dofMaps := by
    rw [hkeys1]
    exact mem_keys_alSetdefault_self st.dofMaps ic initEntry
  obtain ⟨hinv2, hmono2, hclaim2, hkeys2, hinner2⟩ :=
    claimHalf_spec ic (claimHalf ir st0 (econnS.take ii2)) (econnS.drop ii2)
      hinv1 hic1 hbd
  rw [hrfl]
  refine ⟨hinv2, ?_, ?_, ?_, ?_⟩
  · intro d h
    exact hmono2 d (hmono1 d h)
  · intro d hd
    have hd' : d ∈ econnS.flatten := mem_uniq.1 hd
    have hsplit : d ∈ (econnS.take ii2).flatten ++ (econnS.drop ii2).flatten := by
      rw [← List.flatten_append, List.take_append_drop]
      exact hd'
    rcases List.mem_append.1 hsplit with h | h
    · exact hmono2 d (hclaim1 d h)
    · exact hclaim2 d h
  · intro t ht
    rw [hkeys2, hkeys1]
    exact mem_alKeys_alSetdefault ic initEntry ht
  · intro t
    rw [hinner2 t, hinner1 t]
    show (alGetD (alSetdefault st.dofMaps ic initEntry) t initEntry).inner = _
    rw [alGetD_alSetdefault]

/-- The fold over a task's neighbors (lines 83-121), with the collected
`inter_dofs` lists: invariant, growth, and claimedness of all collected
interface dofs. -/
theorem neighborFold_spec {n_nod : Nat} {facet_dofs : List (List Nat)} (ir : Nat)
    (hbF : ∀ row ∈ facet_dofs, ∀ d ∈ row, d < n_nod) :
    ∀ (L : List (Nat × List Nat)) (st : ClaimState) (accD : List (List Nat)),
      claimInv n_nod st → ir ∈ alKeys st.dofMaps →
      (∀ d ∈ accD.flatten, st.idMap.getD d 0 = 1) →
      claimInv n_nod (L.foldl (fun a p =>
          let r := processNeighbor facet_dofs ir a.1 p
          (r.1, a.2 ++ [r.2])) (st, accD)).1 ∧
      (∀ d, st.idMap.getD d 0 = 1 →
        (L.foldl (fun a p =>
          let r := processNeighbor facet_dofs ir a.1 p
          (r.1, a.2 ++ [r.2])) (st, accD)).1.idMap.getD d 0 = 1) ∧
      (∀ d ∈ (L.foldl (fun a p =>
          let r := processNeighbor facet_dofs ir a.1 p
          (r.1, a.2 ++ [r.2])) (st, accD)).2.flatten,
        (L.foldl (fun a p =>
          let r := processNeighbor facet_dofs ir a.1 p
          (r.1, a.2 ++ [r.2])) (st, accD)).1.idMap.getD d 0 = 1) ∧
      (∀ t, t ∈ alKeys st.dofMaps →
        t ∈ alKeys (L.foldl (fun a p =>
          let r := processNeighbor facet_dofs ir a.1 p
          (r.1, a.2 ++ [r.2])) (st, accD)).1.dofMaps) ∧
      (∀ t, (alGetD (L.foldl (fun a p =>
          let r := processNeighbor facet_dofs ir a.1 p
          (r.1, a.2 ++ [r.2])) (st, accD)).1.dofMaps t initEntry).inner =
        (alGetD st.dofMaps t initEntry).inner) := by
  intro L
  induction L with
  | nil =>
    intro st accD hinv hir haccD
    exact ⟨hinv, fun d h => h, haccD, fun t ht => ht, fun t => rfl⟩
  | cons p L ih =>
    intro st accD hinv hir haccD
    obtain ⟨hinv1, hmono1, hclaim1, hkeys1, hinner1⟩ :=
      processNeighbor_spec ir hbF st p hinv hir
    have hir1 : ir ∈ alKeys (processNeighbor facet_dofs ir st p).1.dofMaps :=
      hkeys1 ir hir
    have haccD1 : ∀ d ∈ (accD ++ [(processNeighbor facet_dofs ir st p).2]).flatten,
        (processNeighbor facet_dofs ir st p).1.idMap.getD d 0 = 1 := by
      intro d hd
      rw [List.flatten_append] at hd
      rcases List.mem_append.1 hd with h | h
      · exact hmono1 d (haccD d h)
      · have : d ∈ (processNeighbor facet_dofs ir st p).2 := by simpa using h
        exact hclaim1 d this
    obtain ⟨ih1, ih2, ih3, ih4, ih5⟩ :=
      ih (processNeighbor facet_dofs ir st p).1
        (accD ++ [(processNeighbor facet_dofs ir st p).2]) hinv1 hir1 haccD1
    rw [List.foldl_cons]
    exact ⟨ih1, fun d h => ih2 d (hmono1 d h), ih3,
           fun t ht => ih4 t (hkeys1 t ht), fun t => (ih5 t).trans (hinner1 t)⟩

/-- Everything a successful `processTask` call guarantees for one task. -/
theorem processTask_spec {n_nod : Nat} {econn facet_dofs cell_parts : List (List Nat)}
    (hbE : ∀ row ∈ econn, ∀ d ∈ row, d < n_nod)
    (hbF : ∀ row ∈ facet_dofs, ∀ d ∈ row, d < n_nod)
    (acc : ClaimState × List String) (pr : Nat × List (Nat × List Nat))
    (out : ClaimState × List String)
    (hinv : claimInv n_nod acc.1)
    (hinner : (alGetD acc.1.dofMaps pr.1 initEntry).inner = none)
    (hrun : processTask econn facet_dofs cell_parts acc pr = some out) :
    claimInv n_nod out.1 ∧
    out.2 = acc.2 ∧
    (∀ d, acc.1.idMap.getD d 0 = 1 → out.1.idMap.getD d 0 = 1) ∧
    (∀ d ∈ taskDofs econn cell_parts pr.1, out.1.idMap.getD d 0 = 1) ∧
    (∀ t, t ∈ alKeys acc.1.dofMaps → t ∈ alKeys out.1.dofMaps) ∧
    (∀ t, t ≠ pr.1 → (alGetD out.1.dofMaps t initEntry).inner =
      (alGetD acc.1.dofMaps t initEntry).inner) := by
  set st0 : ClaimState :=
    ⟨acc.1.idMap, alSetdefault acc.1.dofMaps pr.1 initEntry,
     acc.1.count, acc.1.interCount⟩ with hst0
  set F := (ordered_items pr.2).foldl
    (fun (a : ClaimState × List (List Nat)) p =>
      let r := processNeighbor facet_dofs pr.1 a.1 p
      (r.1, a.2 ++ [r.2])) (st0, []) with hF
  set innerDofs := setdiff (taskDofs econn cell_parts pr.1) F.2.flatten with hInner
  have heq : processTask econn facet_dofs cell_parts acc pr =
      (if innerDofs.all (fun d => F.1.idMap.getD d 0 == 0) then
        some (⟨markClaimed F.1.idMap innerDofs,
               alUpdate F.1.dofMaps pr.1 (fun e =>
                 { e with inner := some innerDofs,
                          nOwned := e.nOwned + innerDofs.length }),
               F.1.count + innerDofs.length, F.1.interCount⟩,
              (acc.2 ++ ["task_" ++ toString pr.1]).dropLast)
      else none) := rfl
  rw [heq] at hrun
  split at hrun
  case isFalse => exact absurd hrun (by simp)
  case isTrue hall =>
    have hout : _ = out := Option.some_inj.1 hrun
    have hinv0 : claimInv n_nod st0 :=
      claimInv_alSetdefault pr.1 acc.1.count acc.1.interCount hinv
    have hir0 : pr.1 ∈ alKeys st0.dofMaps :=
      mem_keys_alSetdefault_self acc.1.dofMaps pr.1 initEntry
    obtain ⟨hinvN, hmonoN, hclaimN, hkeysN, hinnerN⟩ :=
      neighborFold_spec pr.1 hbF (ordered_items pr.2) st0 [] hinv0 hir0 (by simp)
    rw [← hF] at hinvN hmonoN hclaimN hkeysN hinnerN
    have hirN : pr.1 ∈ alKeys F.1.dofMaps := hkeysN pr.1 hir0
    have hinnerF : (alGetD F.1.dofMaps pr.1 initEntry).inner = none := by
      rw [hinnerN pr.1]
      show (alGetD (alSetdefault acc.1.dofMaps pr.1 initEntry) pr.1 initEntry).inner = _
      rw [alGetD_alSetdefault]
      exact hinner
    have hnewInner : ∀ d ∈ innerDofs, F.1.idMap.getD d 0 = 0 ∧ d < n_nod := by
      intro d hd
      refine ⟨by simpa using List.all_eq_true.1 hall d hd, ?_⟩
      have hdofs : d ∈ taskDofs econn cell_parts pr.1 := (mem_setdiff.1 hd).1
      rw [taskDofs] at hdofs
      obtain ⟨row, hrow, hdrow⟩ := List.mem_flatten.1 (mem_uniq.1 hdofs)
      obtain ⟨c, _, rfl⟩ := List.mem_map.1 hrow
      exact row_getD_bound hbE c d hdrow
    have hinvOut : claimInv n_nod
        ⟨markClaimed F.1.idMap innerDofs,
         alUpdate F.1.dofMaps pr.1 (fun e =>
           { e with inner := some innerDofs,
                    nOwned := e.nOwned + innerDofs.length }),
         F.1.count + innerDofs.length, F.1.interCount⟩ :=
      claimInv_claimInner (F.1.count + innerDofs.length) F.1.interCount hinvN hirN
        hinnerF (nodup_setdiff _ _) hnewInner
    rw [← hout]
    refine ⟨hinvOut, List.dropLast_concat, ?_, ?_, ?_, ?_⟩
    · intro d h
      exact markClaimed_mono (hmonoN d h)
    · intro d hd
      by_cases hdi : d ∈ innerDofs
      · refine getD_markClaimed_of_mem hdi ?_
        rw [hinvN.1]
        exact (hnewInner d hdi).2
      · have hdflat : d ∈ F.2.flatten := by
          by_contra hnot
          exact hdi (mem_setdiff.2 ⟨hd, hnot⟩)
        exact markClaimed_mono (hclaimN d hdflat)
    · intro t ht
      show t ∈ alKeys (alUpdate F.1.dofMaps pr.1 (fun e =>
        { e with inner := some innerDofs,
                 nOwned := e.nOwned + innerDofs.length }))
      rw [alKeys_alUpdate]
      exact hkeysN t (mem_alKeys_alSetdefault pr.1 initEntry ht)
    · intro t hne
      show (alGetD (alUpdate F.1.dofMaps pr.1 (fun e =>
        { e with inner := some innerDofs,
                 nOwned := e.nOwned + innerDofs.length })) t initEntry).inner = _
      rw [alGetD_alUpdate_ne _ _ _ hne, hinnerN t]
      show (alGetD (alSetdefault acc.1.dofMaps pr.1 initEntry) t initEntry).inner = _
      rw [alGetD_alSetdefault]

theorem insKey_perm {α : Type} (p : Nat × α) (l : List (Nat × α)) :
    (insKey p l).Perm (p :: l) := by
  induction l with
  | nil => exact List.Perm.refl _
  | cons q l ih =>
    rw [insKey]
    split
    · exact List.Perm.refl _
    · exact (ih.cons q).trans (List.Perm.swap p q l)

theorem ordered_items_perm {α : Type} (m : List (Nat × α)) :
    (ordered_items m).Perm m := by
  induction m with
  | nil => exact List.Perm.refl _
  | cons p m ih =>
    show (insKey p (ordered_items m)).Perm (p :: m)
    exact (insKey_perm p (ordered_items m)).trans (ih.cons p)

/-- The claim-phase fold over a list of tasks: invariant, growth, and
coverage of every processed task's dofs. -/
theorem claimFold_spec {n_nod : Nat} {econn facet_dofs cell_parts : List (List Nat)}
    (hbE : ∀ row ∈ econn, ∀ d ∈ row, d < n_nod)
    (hbF : ∀ row ∈ facet_dofs, ∀ d ∈ row, d < n_nod) :
    ∀ (L : List (Nat × List (Nat × List Nat))) (acc out : ClaimState × List String),
      claimInv n_nod acc.1 →
      (∀ k ∈ L.map Prod.fst, (alGetD acc.1.dofMaps k initEntry).inner = none) →
      (L.map Prod.fst).Nodup →
      L.foldlM (processTask econn facet_dofs cell_parts) acc = some out →
      claimInv n_nod out.1 ∧
      out.2 = acc.2 ∧
      (∀ d, acc.1.idMap.getD d 0 = 1 → out.1.idMap.getD d 0 = 1) ∧
      (∀ pr ∈ L, ∀ d ∈ taskDofs econn cell_parts pr.1,
        out.1.idMap.getD d 0 = 1) := by
  intro L
  induction L with
  | nil =>
    intro acc out hinv _ _ hrun
    injection hrun with hrun
    subst hrun
    exact ⟨hinv, rfl, fun d h => h, by simp⟩
  | cons pr L ih =>
    intro acc out hinv hnone hnd hrun
    rw [List.foldlM_cons] at hrun
    obtain ⟨mid, hmid, hrest⟩ := Option.bind_eq_some.1 hrun
    rw [List.map_cons, List.nodup_cons] at hnd
    obtain ⟨hinvM, hregM, hmonoM, hcovM, hkeysM, hinnerM⟩ :=
      processTask_spec hbE hbF acc pr mid hinv
        (hnone pr.1 (by simp)) hmid
    obtain ⟨ihInv, ihReg, ihMono, ihCov⟩ := ih mid out hinvM
      (fun k hk => by
        rw [hinnerM k (fun he => hnd.1 (he ▸ hk))]
        exact hnone k (List.mem_cons_of_mem _ hk))
      hnd.2 hrest
    refine ⟨ihInv, ihReg.trans hregM, fun d h => ihMono d (hmonoM d h), ?_⟩
    intro pr' hpr' d hd
    rcases List.mem_cons.1 hpr' with rfl | hpr'
    · exact ihMono d (hcovM d hd)
    · exact ihCov pr' hpr' d hd

theorem getD_replicate_zero (n d : Nat) : (List.replicate n 0).getD d 0 = 0 := by
  by_cases h : d < n
  · rw [List.getD_eq_getElem _ _ (by simpa), List.getElem_replicate]
  · exact getD_oob (by simpa using le_of_not_lt h)

theorem claimInv_init (n_nod : Nat) :
    claimInv n_nod ⟨List.replicate n_nod 0, [], 0, 0⟩ := by
  refine ⟨List.length_replicate n_nod 0, ?_, ?_, by simp, List.nodup_nil⟩
  · intro d
    exact Or.inl (getD_replicate_zero n_nod d)
  · intro d
    rw [getD_replicate_zero n_nod d]
    simp [allOwned]

/-- The complete claim phase: on success the invariant holds, the region
list is restored, and every dof of every task present in `inter_facets`
is claimed. -/
theorem claimPhase_spec {n_nod : Nat} {econn facet_dofs cell_parts : List (List Nat)}
    {regions0 : List String} {inter_facets : List (Nat × List (Nat × List Nat))}
    {st : ClaimState} {regs : List String}
    (hbE : ∀ row ∈ econn, ∀ d ∈ row, d < n_nod)
    (hbF : ∀ row ∈ facet_dofs, ∀ d ∈ row, d < n_nod)
    (hkeys : (inter_facets.map Prod.fst).Nodup)
    (hrun : claimPhase econn facet_dofs cell_parts n_nod regions0 inter_facets =
      some (st, regs)) :
    claimInv n_nod st ∧ regs = regions0 ∧
    (∀ ir, ir ∈ inter_facets.map Prod.fst →
      ∀ d ∈ taskDofs econn cell_parts ir, st.idMap.getD d 0 = 1) := by
  have hknd : ((ordered_items inter_facets).map Prod.fst).Nodup :=
    (((ordered_items_perm inter_facets).map Prod.fst).nodup_iff).2 hkeys
  obtain ⟨hinv, hreg, _, hcov⟩ := claimFold_spec hbE hbF (ordered_items inter_facets)
    (⟨List.replicate n_nod 0, [], 0, 0⟩, regions0) (st, regs)
    (claimInv_init n_nod)
    (fun k _ => by rw [alGetD]; rfl)
    hknd hrun
  refine ⟨hinv, hreg, ?_⟩
  intro ir hir d hd
  obtain ⟨p, hp, hp1⟩ := List.mem_map.1 hir
  have hp' : p ∈ ordered_items inter_facets := (ordered_items_perm inter_facets).mem_iff.2 hp
  have := hcov p hp' d (by rw [hp1]; exact hd)
  exact this

/-! ## Numbering-phase lemmas -/

theorem assignIds_length : ∀ (ds : List Nat) (m : List Nat) (s : Nat),
    (assignIds m s ds).length = m.length := by
  intro ds
  induction ds with
  | nil => intro m s; rfl
  | cons d ds ih =>
    intro m s
    show (assignIds (m.set d s) (s + 1) ds).length = m.length
    rw [ih, List.length_set]

theorem getD_assignIds_not_mem : ∀ {ds : List Nat} (m : List Nat) (s : Nat)
    {x : Nat}, x ∉ ds → (assignIds m s ds).getD x 0 = m.getD x 0 := by
  intro ds
  induction ds with
  | nil => intro m s x _; rfl
  | cons d ds ih =>
    intro m s x hx
    show (assignIds (m.set d s) (s + 1) ds).getD x 0 = m.getD x 0
    have hdx : d ≠ x := fun he => hx (by rw [← he]; exact List.mem_cons_self d ds)
    rw [ih _ _ (fun h => hx (List.mem_cons_of_mem d h)), getD_set_ne hdx]

/-- `id_map[ds] = arange(s, s + len(ds))` read back along `ds`. -/
theorem map_getD_assignIds : ∀ (ds : List Nat) (m : List Nat) (s : Nat),
    ds.Nodup → (∀ x ∈ ds, x < m.length) →
    ds.map (fun d => (assignIds m s ds).getD d 0) = arange s ds.length := by
  intro ds
  induction ds with
  | nil => intro m s _ _; rfl
  | cons d ds ih =>
    intro m s hnd hlt
    rw [List.nodup_cons] at hnd
    show List.map (fun x => (assignIds (m.set d s) (s + 1) ds).getD x 0) (d :: ds) =
      arange s (ds.length + 1)
    rw [List.map_cons, arange_succ]
    congr 1
    · rw [getD_assignIds_not_mem _ _ hnd.1,
          getD_set_self (hlt d (List.mem_cons_self d ds))]
    · exact ih (m.set d s) (s + 1) hnd.2
        (fun x hx => by rw [List.length_set]; exact hlt x (List.mem_cons_of_mem d hx))

/-- The inner fold of `numberTask` over the owned-interface blocks:
`id_map[aux] = arange(offset + i0, offset + i0 + len(aux))` per block. -/
theorem numberBlocks_spec (base : Nat) :
    ∀ (blocks : List (List Nat)) (m : List Nat) (i0 : Nat),
      blocks.flatten.Nodup → (∀ x ∈ blocks.flatten, x < m.length) →
      (blocks.foldl (fun (a : List Nat × Nat) b =>
        (assignIds a.1 (base + a.2) b, a.2 + b.length)) (m, i0)).2 =
          i0 + (blocks.map List.length).sum ∧
      (blocks.foldl (fun (a : List Nat × Nat) b =>
        (assignIds a.1 (base + a.2) b, a.2 + b.length)) (m, i0)).1.length = m.length ∧
      (∀ x, x ∉ blocks.flatten →
        (blocks.foldl (fun (a : List Nat × Nat) b =>
          (assignIds a.1 (base + a.2) b, a.2 + b.length)) (m, i0)).1.getD x 0 =
          m.getD x 0) ∧
      blocks.flatten.map (fun d =>
        (blocks.foldl (fun (a : List Nat × Nat) b =>
          (assignIds a.1 (base + a.2) b, a.2 + b.length)) (m, i0)).1.getD d 0) =
        arange (base + i0) (blocks.map List.length).sum := by
  intro blocks
  induction blocks with
  | nil =>
    intro m i0 _ _
    exact ⟨by simp, rfl, fun x _ => rfl, rfl⟩
  | cons b blocks ih =>
    intro m i0 hnd hlt
    rw [List.flatten_cons] at hnd hlt
    have hbnd : b.Nodup := hnd.sublist (List.sublist_append_left b blocks.flatten)
    have hrest : blocks.flatten.Nodup :=
      hnd.sublist (List.sublist_append_right b blocks.flatten)
    have hdisj : ∀ x ∈ b, x ∉ blocks.flatten := by
      intro x hx hx'
      exact (List.disjoint_of_nodup_append hnd) hx hx'
    have hltb : ∀ x ∈ b, x < m.length := fun x hx => hlt x (List.mem_append_left _ hx)
    have hltr : ∀ x ∈ blocks.flatten, x < (assignIds m (base + i0) b).length := by
      intro x hx
      rw [assignIds_length]
      exact hlt x (List.mem_append_right _ hx)
    obtain ⟨ih1, ih2, ih3, ih4⟩ := ih (assignIds m (base + i0) b) (i0 + b.length)
      hrest hltr
    rw [List.foldl_cons]
    refine ⟨?_, ?_, ?_, ?_⟩
    · rw [ih1]
      simp only [List.map_cons, List.sum_cons]
      omega
    · rw [ih2, assignIds_length]
    · intro x hx
      rw [List.flatten_cons, List.mem_append] at hx
      push_neg at hx
      rw [ih3 x hx.2, getD_assignIds_not_mem _ _ hx.1]
    · rw [List.flatten_cons, List.map_append]
      have hbpart : b.map (fun d =>
          (blocks.foldl (fun (a : List Nat × Nat) b =>
            (assignIds a.1 (base + a.2) b, a.2 + b.length))
            (assignIds m (base + i0) b, i0 + b.length)).1.getD d 0) =
          b.map (fun d => (assignIds m (base + i0) b).getD d 0) :=
        List.map_congr_left (fun d hd => ih3 d (hdisj d hd))
      rw [hbpart, map_getD_assignIds b m (base + i0) hbnd hltb, ih4]
      rw [show base + (i0 + b.length) = (base + i0) + b.length by omega,
          arange_append]
      simp only [List.map_cons, List.sum_cons]

/-- One successful numbering step (lines 135-150) for entry `(k, e)`. -/
theorem numberTask_spec {dms : List (Nat × DofMapEntry)} {m : List Nat} {off : Nat}
    {k : Nat} {e : DofMapEntry} {out : List (Nat × DofMapEntry) × List Nat × Nat}
    (hnd : (entryOwned e).Nodup)
    (hlt : ∀ x ∈ entryOwned e, x < m.length)
    (hrun : numberTask (dms, m, off) (k, e) = some out) :
    out.1 = alUpdate dms k (fun e' => { e' with offset := off }) ∧
    out.2.2 = off + e.nOwned ∧
    out.2.1.length = m.length ∧
    (∀ x, x ∉ entryOwned e → out.2.1.getD x 0 = m.getD x 0) ∧
    ((entryOwned e).map (fun d => out.2.1.getD d 0) = arange off e.nOwned) := by
  cases he : e.inner with
  | none =>
    rw [numberTask] at hrun
    simp only [he] at hrun
    exact absurd hrun (by simp)
  | some inn =>
    rw [numberTask] at hrun
    simp only [he] at hrun
    rw [entryOwned, he] at hnd hlt
    simp only [Option.getD_some] at hnd hlt
    have hinn : inn.Nodup := hnd.sublist (List.sublist_append_left _ _)
    have hflt : e.blocks.flatten.Nodup :=
      hnd.sublist (List.sublist_append_right _ _)
    have hdisj : ∀ x ∈ inn, x ∉ e.blocks.flatten :=
      fun x hx hx' => (List.disjoint_of_nodup_append hnd) hx hx'
    have hlti : ∀ x ∈ inn, x < m.length :=
      fun x hx => hlt x (List.mem_append_left _ hx)
    have hltf : ∀ x ∈ e.blocks.flatten, x < (assignIds m off inn).length := by
      intro x hx
      rw [assignIds_length]
      exact hlt x (List.mem_append_right _ hx)
    obtain ⟨nb1, nb2, nb3, nb4⟩ :=
      numberBlocks_spec off e.blocks (assignIds m off inn) inn.length hflt hltf
    split at hrun
    case isFalse => exact absurd hrun (by simp)
    case isTrue hcheck =>
      have hout : _ = out := Option.some_inj.1 hrun
      have hsum : inn.length + (e.blocks.map List.length).sum = e.nOwned := by
        rw [← hcheck, nb1]
      rw [← hout]
      refine ⟨rfl, rfl, ?_, ?_, ?_⟩
      · show (e.blocks.foldl _ (assignIds m off inn, inn.length)).1.length = m.length
        rw [nb2, assignIds_length]
      · intro x hx
        rw [entryOwned, he] at hx
        simp only [Option.getD_some, List.mem_append] at hx
        push_neg at hx
        show (e.blocks.foldl _ (assignIds m off inn, inn.length)).1.getD x 0 = _
        rw [nb3 x hx.2, getD_assignIds_not_mem _ _ hx.1]
      · rw [entryOwned, he]
        simp only [Option.getD_some]
        rw [List.map_append]
        have hinnpart : inn.map (fun d =>
            (e.blocks.foldl (fun (a : List Nat × Nat) b =>
              (assignIds a.1 (off + a.2) b, a.2 + b.length))
              (assignIds m off inn, inn.length)).1.getD d 0) =
            inn.map (fun d => (assignIds m off inn).getD d 0) :=
          List.map_congr_left (fun d hd => nb3 d (hdisj d hd))
        rw [hinnpart, map_getD_assignIds inn m off hinn hlti, nb4, arange_append,
            hsum]

theorem allOwned_alUpdate_offset (m : List (Nat × DofMapEntry)) (k o : Nat) :
    allOwned (alUpdate m k (fun e => { e with offset := o })) = allOwned m := by
  rw [allOwned, allOwned, alUpdate, List.map_map]
  refine congrArg List.flatten (List.map_congr_left ?_)
  intro p _
  by_cases hp : p.1 = k <;> simp [hp, entryOwned]

theorem sumOwned_nil : sumOwned [] = 0 := rfl

theorem sumOwned_cons (q : Nat × DofMapEntry) (l : List (Nat × DofMapEntry)) :
    sumOwned (q :: l) = q.2.nOwned + sumOwned l := by
  simp [sumOwned]

/-- The numbering loop (lines 134-150) over the sorted task list `L`:
final offset, untouched positions, per-task offsets and id ranges, and
the global id assignment. -/
theorem numberFold_spec :
    ∀ (L : List (Nat × DofMapEntry)) (dms0 : List (Nat × DofMapEntry))
      (m0 : List Nat) (off0 : Nat) (out : List (Nat × DofMapEntry) × List Nat × Nat),
      (allOwned L).Nodup →
      (∀ x ∈ allOwned L, x < m0.length) →
      (L.map Prod.fst).Nodup →
      (∀ p ∈ L, dms0.lookup p.1 = some p.2) →
      L.foldlM numberTask (dms0, m0, off0) = some out →
      out.2.2 = off0 + sumOwned L ∧
      out.2.1.length = m0.length ∧
      (∀ x, x ∉ allOwned L → out.2.1.getD x 0 = m0.getD x 0) ∧
      alKeys out.1 = alKeys dms0 ∧
      (∀ k, k ∉ L.map Prod.fst → out.1.lookup k = dms0.lookup k) ∧
      (∀ pre q post, L = pre ++ q :: post →
        out.1.lookup q.1 = some { q.2 with offset := off0 + sumOwned pre } ∧
        (entryOwned q.2).map (fun d => out.2.1.getD d 0) =
          arange (off0 + sumOwned pre) q.2.nOwned) ∧
      (allOwned L).map (fun d => out.2.1.getD d 0) = arange off0 (sumOwned L) ∧
      allOwned out.1 = allOwned dms0 := by
  intro L
  induction L with
  | nil =>
    intro dms0 m0 off0 out _ _ _ _ hrun
    injection hrun with hrun
    subst hrun
    refine ⟨by simp [sumOwned_nil], rfl, fun x _ => rfl, rfl, fun k _ => rfl, ?_, rfl, rfl⟩
    intro pre q post hsplit
    exact absurd hsplit (by simp)
  | cons q L ih =>
    intro dms0 m0 off0 out hnd hlt hknd hlook hrun
    rw [List.foldlM_cons] at hrun
    obtain ⟨mid, hmid, hrest⟩ := Option.bind_eq_some.1 hrun
    rw [List.map_cons, List.nodup_cons] at hknd
    rw [allOwned_cons q.1 q.2 L] at hnd hlt
    have hndq : (entryOwned q.2).Nodup :=
      hnd.sublist (List.sublist_append_left _ _)
    have hndL : (allOwned L).Nodup :=
      hnd.sublist (List.sublist_append_right _ _)
    have hdisj : ∀ x ∈ entryOwned q.2, x ∉ allOwned L :=
      fun x hx hx' => (List.disjoint_of_nodup_append hnd) hx hx'
    have hltq : ∀ x ∈ entryOwned q.2, x < m0.length :=
      fun x hx => hlt x (List.mem_append_left _ hx)
    obtain ⟨ht1, ht2, ht3, ht4, ht5⟩ := numberTask_spec hndq hltq hmid
    have hmid' : mid = (alUpdate dms0 q.1 (fun e' => { e' with offset := off0 }),
        mid.2.1, off0 + q.2.nOwned) := by
      rw [Prod.ext_iff]
      refine ⟨ht1, ?_⟩
      rw [Prod.ext_iff]
      exact ⟨rfl, ht2⟩
    have hrest' : L.foldlM numberTask
        (alUpdate dms0 q.1 (fun e' => { e' with offset := off0 }),
         mid.2.1, off0 + q.2.nOwned) = some out := by
      rw [← hmid']
      exact hrest
    have hlook' : ∀ p ∈ L, (alUpdate dms0 q.1
        (fun e' => { e' with offset := off0 })).lookup p.1 = some p.2 := by
      intro p hp
      have hne : p.1 ≠ q.1 := by
        intro he
        exact hknd.1 (by rw [← he]; exact List.mem_map.2 ⟨p, hp, rfl⟩)
      rw [lookup_alUpdate, if_neg hne]
      exact hlook p (List.mem_cons_of_mem q hp)
    obtain ⟨ih1, ih2, ih3, ih4, ih5, ih6, ih7, ih8⟩ := ih
      (alUpdate dms0 q.1 (fun e' => { e' with offset := off0 }))
      mid.2.1 (off0 + q.2.nOwned) out hndL
      (fun x hx => by rw [ht3]; exact hlt x (List.mem_append_right _ hx))
      hknd.2 hlook' hrest'
    have hvalsq : ∀ d ∈ entryOwned q.2, out.2.1.getD d 0 = mid.2.1.getD d 0 :=
      fun d hd => ih3 d (hdisj d hd)
    refine ⟨?_, ?_, ?_, ?_, ?_, ?_, ?_, ?_⟩
    · rw [sumOwned_cons]
      omega
    · rw [ih2, ht3]
    · intro x hx
      rw [allOwned_cons q.1 q.2 L, List.mem_append] at hx
      push_neg at hx
      rw [ih3 x hx.2, ht4 x hx.1]
    · rw [ih4]
      show alKeys (alUpdate dms0 q.1 (fun e' => { e' with offset := off0 })) = _
      exact alKeys_alUpdate _ _ _
    · intro k hk
      rw [List.map_cons, List.mem_cons] at hk
      push_neg at hk
      rw [ih5 k hk.2, lookup_alUpdate, if_neg hk.1]
    · intro pre q' post hsplit
      cases pre with
      | nil =>
        simp only [List.nil_append] at hsplit
        injection hsplit with hq hL
        subst hq
        subst hL
        constructor
        · rw [ih5 q.1 (fun hc => hknd.1 hc), lookup_alUpdate, if_pos rfl,
              hlook q (List.mem_cons_self q L)]
          rw [sumOwned_nil]
          simp
        · rw [List.map_congr_left (fun d hd => hvalsq d hd), ht5, sumOwned_nil,
              Nat.add_zero]
      | cons q'' pre' =>
        rw [List.cons_append] at hsplit
        injection hsplit with hq hL
        subst hq
        obtain ⟨hlk, hmap⟩ := ih6 pre' q' post hL
        have hoff : off0 + q.2.nOwned + sumOwned pre' = off0 + sumOwned (q :: pre') := by
          rw [sumOwned_cons]
          omega
        exact ⟨by rw [hlk, hoff], by rw [hmap, hoff]⟩
    · rw [allOwned_cons q.1 q.2 L, List.map_append,
          List.map_congr_left (fun d hd => hvalsq d hd), ht5, ih7, sumOwned_cons,
          arange_append]
    · rw [ih8]
      exact allOwned_alUpdate_offset dms0 q.1 off0

theorem sumOwned_append (l1 l2 : List (Nat × DofMapEntry)) :
    sumOwned (l1 ++ l2) = sumOwned l1 + sumOwned l2 := by
  simp [sumOwned]

/-- Locate the task block containing a global id `i`. -/
theorem sumOwned_locate : ∀ (L : List (Nat × DofMapEntry)) (i : Nat),
    i < sumOwned L →
    ∃ pre q post, L = pre ++ q :: post ∧ sumOwned pre ≤ i ∧
      i < sumOwned pre + q.2.nOwned := by
  intro L
  induction L with
  | nil => intro i hi; rw [sumOwned_nil] at hi; omega
  | cons q L ih =>
    intro i hi
    rw [sumOwned_cons] at hi
    by_cases hq : i < q.2.nOwned
    · exact ⟨[], q, L, rfl, by rw [sumOwned_nil]; omega, by rw [sumOwned_nil]; omega⟩
    · obtain ⟨pre, q', post, hsplit, h1, h2⟩ := ih (i - q.2.nOwned) (by omega)
      refine ⟨q :: pre, q', post, by rw [hsplit]; rfl, ?_, ?_⟩
      · rw [sumOwned_cons]; omega
      · rw [sumOwned_cons]; omega

/-- Of two decompositions of the same list at different positions, the
earlier block ends no later than the later block starts. -/
theorem two_splits_le {L pre1 pre2 : List (Nat × DofMapEntry)}
    {a b : Nat × DofMapEntry} {post1 post2 : List (Nat × DofMapEntry)}
    (h1 : L = pre1 ++ a :: post1) (h2 : L = pre2 ++ b :: post2)
    (hlen : pre1.length < pre2.length) :
    sumOwned pre1 + a.2.nOwned ≤ sumOwned pre2 := by
  have htk1 : L.take (pre1.length + 1) = pre1 ++ [a] := by
    rw [h1, List.take_append]
    rfl
  have htk2 : L.take pre2.length = pre2 := by
    rw [h2, show pre2.length = pre2.length + 0 from rfl, List.take_append]
    simp
  have hsplit2 : pre2 = (pre1 ++ [a]) ++
      (L.drop (pre1.length + 1)).take (pre2.length - (pre1.length + 1)) := by
    rw [← htk1, ← List.take_add,
        show pre1.length + 1 + (pre2.length - (pre1.length + 1)) = pre2.length
          by omega]
    exact htk2.symm
  rw [hsplit2, sumOwned_append, sumOwned_append]
  have : sumOwned [a] = a.2.nOwned := by simp [sumOwned]
  omega

/-! ## C1: the produced numbering partitions the dof set -/

/-- C1 (amended): whenever every dof touches a cell of some task present
in `inter_facets` and `create_task_dof_maps` returns, every dof lands in
exactly one task's inner/owned-interface lists, each task's global ids
are the contiguous range `[offset, offset + n_owned)`, and the ranges of
distinct tasks are pairwise disjoint and together cover
`[0, total dofs)`. -/
theorem create_task_dof_maps_partitions_dofs
    (econn facet_dofs cell_parts : List (List Nat)) (n_nod : Nat)
    (regions0 : List String) (inter_facets : List (Nat × List (Nat × List Nat)))
    (dms : List (Nat × DofMapEntry)) (idMap : List Nat) (regs : List String)
    (hkeys : (inter_facets.map Prod.fst).Nodup)
    (hbE : ∀ row ∈ econn, ∀ d ∈ row, d < n_nod)
    (hbF : ∀ row ∈ facet_dofs, ∀ d ∈ row, d < n_nod)
    (hcov : ∀ d, d < n_nod → ∃ ir ∈ inter_facets.map Prod.fst,
      d ∈ taskDofs econn cell_parts ir)
    (hrun : create_task_dof_maps econn facet_dofs cell_parts n_nod regions0
      inter_facets = some (dms, idMap, regs)) :
    (allOwned dms).Nodup ∧
    (∀ d, d ∈ allOwned dms ↔ d < n_nod) ∧
    (∀ p ∈ dms, (entryOwned p.2).map (fun d => idMap.getD d 0) =
      arange p.2.offset p.2.nOwned) ∧
    (∀ p ∈ dms, ∀ q ∈ dms, p.1 ≠ q.1 →
      ∀ i, i ∈ arange p.2.offset p.2.nOwned → i ∉ arange q.2.offset q.2.nOwned) ∧
    (∀ i, i < n_nod → ∃ p ∈ dms, p.2.offset ≤ i ∧ i < p.2.offset + p.2.nOwned) ∧
    (∀ p ∈ dms, p.2.offset + p.2.nOwned ≤ n_nod) := by
  rw [create_task_dof_maps] at hrun
  cases hcp : claimPhase econn facet_dofs cell_parts n_nod regions0 inter_facets with
  | none => rw [hcp] at hrun; exact absurd hrun (by simp)
  | some straux =>
    obtain ⟨st, regsC⟩ := straux
    rw [hcp] at hrun
    cases hnf : (ordered_items st.dofMaps).foldlM numberTask
        (st.dofMaps, st.idMap, 0) with
    | none => simp only [hnf] at hrun; exact absurd hrun (by simp)
    | some out =>
      obtain ⟨dmsO, idMapO, offO⟩ := out
      simp only [hnf] at hrun
      injection hrun with hrun
      injection hrun with hdms hrun
      injection hrun with hidm hregs
      subst hdms
      subst hidm
      obtain ⟨hinv, hregsC, hclaimed⟩ := claimPhase_spec hbE hbF hkeys hcp
      obtain ⟨hIdLen, hvals, hcount, hbook, hknd⟩ := hinv
      have hflag : ∀ d, d < n_nod → st.idMap.getD d 0 = 1 := by
        intro d hd
        obtain ⟨ir, hir, hdt⟩ := hcov d hd
        exact hclaimed ir hir d hdt
      have hflag' : ∀ d, st.idMap.getD d 0 = 1 → d < n_nod := by
        intro d h1
        by_contra hge
        rw [getD_oob (by omega)] at h1
        exact absurd h1 (by omega)
      have hmemOwned : ∀ d, d ∈ allOwned st.dofMaps ↔ d < n_nod := by
        intro d
        constructor
        · intro hd
          have := hcount d
          rw [count_nodup] at this
          · rw [if_pos hd] at this
            split at this
            · exact hflag' d (by assumption)
            · exact absurd this (by omega)
          · rw [List.nodup_iff_count_le_one]
            intro a
            rw [hcount a]
            split <;> omega
        · intro hd
          rw [← List.count_pos_iff, hcount d, if_pos (hflag d hd)]
          omega
      have hNodupOwned : (allOwned st.dofMaps).Nodup := by
        rw [List.nodup_iff_count_le_one]
        intro a
        rw [hcount a]
        split <;> omega
      have hpermL : (allOwned (ordered_items st.dofMaps)).Perm
          (allOwned st.dofMaps) := by
        have hm : (List.map (fun p => entryOwned p.2)
            (ordered_items st.dofMaps)).Perm
            (List.map (fun p => entryOwned p.2) st.dofMaps) :=
          (ordered_items_perm st.dofMaps).map (fun p => entryOwned p.2)
        exact hm.flatten
      have hndL : (allOwned (ordered_items st.dofMaps)).Nodup :=
        hpermL.nodup_iff.2 hNodupOwned
      have hltL : ∀ x ∈ allOwned (ordered_items st.dofMaps), x < st.idMap.length := by
        intro x hx
        rw [hIdLen]
        exact (hmemOwned x).1 (hpermL.mem_iff.1 hx)
      have hkndL : ((ordered_items st.dofMaps).map Prod.fst).Nodup :=
        (((ordered_items_perm st.dofMaps).map Prod.fst).nodup_iff).2 hknd
      have hlookL : ∀ p ∈ ordered_items st.dofMaps,
          st.dofMaps.lookup p.1 = some p.2 := by
        intro p hp
        exact lookup_eq_some_of_mem hknd
          ((ordered_items_perm st.dofMaps).mem_iff.1 hp)
      obtain ⟨nf1, nf2, nf3, nf4, nf5, nf6, nf7, nf8⟩ :=
        numberFold_spec (ordered_items st.dofMaps) st.dofMaps st.idMap 0
          (dmsO, idMapO, offO) hndL hltL hkndL hlookL hnf
      have hbookL : ∀ p ∈ ordered_items st.dofMaps,
          p.2.nOwned = (entryOwned p.2).length := by
        intro p hp
        exact (hbook p ((ordered_items_perm st.dofMaps).mem_iff.1 hp)).1
      have hpermR : (allOwned st.dofMaps).Perm (List.range n_nod) := by
        rw [List.perm_iff_count]
        intro a
        rw [hcount a, count_nodup (List.nodup_range n_nod)]
        by_cases ha : a < n_nod
        · rw [if_pos (hflag a ha), if_pos (List.mem_range.2 ha)]
        · have h2 : a ∉ List.range n_nod := by simpa using ha
          rw [if_neg h2]
          split
          · exact absurd (hflag' a (by assumption)) ha
          · rfl
      have htotal : sumOwned (ordered_items st.dofMaps) = n_nod := by
        have hlen1 : (allOwned (ordered_items st.dofMaps)).length = n_nod := by
          rw [hpermL.length_eq, hpermR.length_eq, List.length_range]
        have hlen2 : (allOwned (ordered_items st.dofMaps)).length =
            sumOwned (ordered_items st.dofMaps) := by
          rw [allOwned, List.length_flatten, List.map_map, sumOwned]
          refine congrArg List.sum (List.map_congr_left ?_)
          intro p hp
          exact (hbookL p hp).symm
        omega
      have hkndO : (alKeys dmsO).Nodup := by rw [nf4]; exact hknd
      have hsplitOf : ∀ p, p ∈ dmsO →
          ∃ pre q post, ordered_items st.dofMaps = pre ++ q :: post ∧
            p.2 = { q.2 with offset := 0 + sumOwned pre } ∧ p.1 = q.1 := by
        intro p hp
        have hlkp : dmsO.lookup p.1 = some p.2 := lookup_eq_some_of_mem hkndO hp
        have hkey : p.1 ∈ alKeys st.dofMaps := by
          rw [← nf4]
          exact List.mem_map.2 ⟨p, hp, rfl⟩
        have hkeyL : p.1 ∈ (ordered_items st.dofMaps).map Prod.fst := by
          rcases List.mem_map.1 hkey with ⟨q, hq, hq1⟩
          exact List.mem_map.2 ⟨q, (ordered_items_perm st.dofMaps).mem_iff.2 hq, hq1⟩
        obtain ⟨q, hqL, hq1⟩ := List.mem_map.1 hkeyL
        obtain ⟨pre, post, hsplit⟩ := List.append_of_mem hqL
        obtain ⟨hlk, _⟩ := nf6 pre q post hsplit
        rw [hq1] at hlk
        rw [hlkp] at hlk
        injection hlk with hlk
        exact ⟨pre, q, post, hsplit, hlk, hq1.symm⟩
      refine ⟨?_, ?_, ?_, ?_, ?_, ?_⟩
      · show (allOwned dmsO).Nodup
        rw [nf8]
        exact hNodupOwned
      · intro d
        show d ∈ allOwned dmsO ↔ _
        rw [nf8]
        exact hmemOwned d
      · intro p hp
        obtain ⟨pre, q, post, hsplit, hp2, hp1⟩ := hsplitOf p hp
        obtain ⟨_, hmap⟩ := nf6 pre q post hsplit
        rw [hp2]
        exact hmap
      · intro p hp q hq hne i hip hiq
        obtain ⟨pre1, a, post1, hs1, hp2, hp1⟩ := hsplitOf p hp
        obtain ⟨pre2, b, post2, hs2, hq2, hq1⟩ := hsplitOf q hq
        have hlne : pre1.length ≠ pre2.length := by
          intro he
          obtain ⟨hpre, hrest⟩ := List.append_inj (hs1 ▸ hs2) he
          injection hrest with hab
          exact hne (by rw [hp1, hq1, hab])
        rw [hp2] at hip
        rw [hq2] at hiq
        rw [mem_arange] at hip hiq
        rcases Nat.lt_or_ge pre1.length pre2.length with hlt | hge
        · have := two_splits_le hs1 hs2 hlt
          simp only at hip hiq
          omega
        · have hlt2 : pre2.length < pre1.length := by omega
          have := two_splits_le hs2 hs1 hlt2
          simp only at hip hiq
          omega
      · intro i hi
        obtain ⟨pre, q, post, hsplit, h1, h2⟩ :=
          sumOwned_locate (ordered_items st.dofMaps) i (by rw [htotal]; exact hi)
        obtain ⟨hlk, _⟩ := nf6 pre q post hsplit
        refine ⟨(q.1, { q.2 with offset := 0 + sumOwned pre }),
          mem_of_lookup_eq_some hlk, ?_, ?_⟩
        · show 0 + sumOwned pre ≤ i
          omega
        · show i < 0 + sumOwned pre + q.2.nOwned
          omega
      · intro p hp
        obtain ⟨pre, q, post, hsplit, hp2, hp1⟩ := hsplitOf p hp
        have hsum : sumOwned (ordered_items st.dofMaps) =
            sumOwned pre + q.2.nOwned + sumOwned post := by
          rw [hsplit, sumOwned_append, sumOwned_cons]
          omega
        rw [hp2]
        show 0 + sumOwned pre + q.2.nOwned ≤ n_nod
        omega

/-- C1 counterexample for the unamended claim: on a disconnected mesh
partitioned 2 ways (each task one cell, no shared facet),
`get_inter_facets` is empty, `create_task_dof_maps` succeeds with an
empty dof-map dict, and dof 0 of the 2 mesh dofs lands in no task's
inner or owned-interface lists: the numbering has a gap. -/
theorem create_task_dof_maps_gap_cex :
    get_inter_facets ⟨2, [0, 1, 2], [0, 1]⟩ [0, 1] = [] ∧
    create_task_dof_maps [[0], [1]] [] [[0], [1]] 2 [] [] =
      some ([], [0, 0], []) ∧
    0 < 2 ∧ 0 ∉ allOwned ([] : List (Nat × DofMapEntry)) := by
  refine ⟨rfl, rfl, by decide, by decide⟩

/-- Witness for C1 on a connected 2-cell mesh: 3 dofs, tasks 0 and 1
sharing facet 1 whose facet dof is dof 1. -/
theorem create_task_dof_maps_partitions_dofs_witness :
    (allOwned [(0, (⟨some [0], [[1]], 2, 0⟩ : DofMapEntry)),
      (1, ⟨some [2], [], 1, 2⟩)]).Nodup ∧
    (∀ d, d ∈ allOwned [(0, (⟨some [0], [[1]], 2, 0⟩ : DofMapEntry)),
      (1, ⟨some [2], [], 1, 2⟩)] ↔ d < 3) ∧
    (∀ p ∈ [(0, (⟨some [0], [[1]], 2, 0⟩ : DofMapEntry)),
      (1, ⟨some [2], [], 1, 2⟩)],
      (entryOwned p.2).map (fun d => ([0, 1, 2] : List Nat).getD d 0) =
        arange p.2.offset p.2.nOwned) ∧
    (∀ p ∈ [(0, (⟨some [0], [[1]], 2, 0⟩ : DofMapEntry)),
      (1, ⟨some [2], [], 1, 2⟩)],
      ∀ q ∈ [(0, (⟨some [0], [[1]], 2, 0⟩ : DofMapEntry)),
        (1, ⟨some [2], [], 1, 2⟩)], p.1 ≠ q.1 →
      ∀ i, i ∈ arange p.2.offset p.2.nOwned →
        i ∉ arange q.2.offset q.2.nOwned) ∧
    (∀ i, i < 3 → ∃ p ∈ [(0, (⟨some [0], [[1]], 2, 0⟩ : DofMapEntry)),
      (1, ⟨some [2], [], 1, 2⟩)],
      p.2.offset ≤ i ∧ i < p.2.offset + p.2.nOwned) ∧
    (∀ p ∈ [(0, (⟨some [0], [[1]], 2, 0⟩ : DofMapEntry)),
      (1, ⟨some [2], [], 1, 2⟩)], p.2.offset + p.2.nOwned ≤ 3) :=
  create_task_dof_maps_partitions_dofs [[0, 1], [1, 2]] [[], [1], []]
    [[0], [1]] 3 [] [(0, [(1, [1])]), (1, [(0, [1])])]
    [(0, ⟨some [0], [[1]], 2, 0⟩), (1, ⟨some [2], [], 1, 2⟩)] [0, 1, 2] []
    (by decide) (by decide) (by decide) (by decide) rfl

/-! ## C9: the helper regions are popped before returning -/

theorem processTask_regions (econn facet_dofs cell_parts : List (List Nat))
    (acc : ClaimState × List String) (pr : Nat × List (Nat × List Nat))
    (out : ClaimState × List String)
    (h : processTask econn facet_dofs cell_parts acc pr = some out) :
    out.2 = acc.2 := by
  simp only [processTask] at h
  split at h
  · injection h with h
    rw [← h]
    exact List.dropLast_concat
  · exact absurd h (by simp)

theorem claimFold_regions (econn facet_dofs cell_parts : List (List Nat)) :
    ∀ (L : List (Nat × List (Nat × List Nat))) (acc out : ClaimState × List String),
      L.foldlM (processTask econn facet_dofs cell_parts) acc = some out →
      out.2 = acc.2 := by
  intro L
  induction L with
  | nil =>
    intro acc out hrun
    injection hrun with hrun
    subst hrun
    rfl
  | cons pr L ih =>
    intro acc out hrun
    rw [List.foldlM_cons] at hrun
    obtain ⟨mid, hmid, hrest⟩ := Option.bind_eq_some.1 hrun
    exact (ih mid out hrest).trans
      (processTask_regions econn facet_dofs cell_parts acc pr mid hmid)

/-- C9: whenever `create_task_dof_maps` returns, the domain's region list
it hands back equals the input region list: each helper cell region
`task_<ir>` appended during the claim loop is popped (`dropLast`) before
the iteration ends, and nothing else is added, removed, or reordered. -/
theorem create_task_dof_maps_regions_frame
    (econn facet_dofs cell_parts : List (List Nat)) (n_nod : Nat)
    (regions0 : List String) (inter_facets : List (Nat × List (Nat × List Nat)))
    (dms : List (Nat × DofMapEntry)) (idMap : List Nat) (regs : List String)
    (hrun : create_task_dof_maps econn facet_dofs cell_parts n_nod regions0
      inter_facets = some (dms, idMap, regs)) :
    regs = regions0 := by
  rw [create_task_dof_maps] at hrun
  cases hcp : claimPhase econn facet_dofs cell_parts n_nod regions0 inter_facets with
  | none => rw [hcp] at hrun; exact absurd hrun (by simp)
  | some straux =>
    obtain ⟨st, regsC⟩ := straux
    rw [hcp] at hrun
    cases hnf : (ordered_items st.dofMaps).foldlM numberTask
        (st.dofMaps, st.idMap, 0) with
    | none => simp only [hnf] at hrun; exact absurd hrun (by simp)
    | some out =>
      obtain ⟨dmsO, idMapO, offO⟩ := out
      simp only [hnf] at hrun
      injection hrun with hrun
      injection hrun with hdms hrun
      injection hrun with hidm hregs
      rw [claimPhase] at hcp
      rw [← hregs]
      exact claimFold_regions econn facet_dofs cell_parts
        (ordered_items inter_facets) _ (st, regsC) hcp

/-- Witness for C9: the connected 2-cell example with a persisted region
list `["Omega"]` returns it unchanged. -/
theorem create_task_dof_maps_regions_frame_witness :
    create_task_dof_maps [[0, 1], [1, 2]] [[], [1], []] [[0], [1]] 3 ["Omega"]
      [(0, [(1, [1])]), (1, [(0, [1])])] =
      some ([(0, ⟨some [0], [[1]], 2, 0⟩), (1, ⟨some [2], [], 1, 2⟩)],
        [0, 1, 2], ["Omega"]) ∧
    (["Omega"] : List String) = ["Omega"] :=
  ⟨rfl, create_task_dof_maps_regions_frame [[0, 1], [1, 2]] [[], [1], []]
    [[0], [1]] 3 ["Omega"] [(0, [(1, [1])]), (1, [(0, [1])])]
    [(0, ⟨some [0], [[1]], 2, 0⟩), (1, ⟨some [2], [], 1, 2⟩)] [0, 1, 2]
    ["Omega"] rfl⟩

/-! ## C5: claim conflicts and the missing owned-count sum check -/

/-- C5 counterexample: with 4 mesh dofs but only 3 touched by the two
tasks, `create_task_dof_maps` returns successfully with owned counts
summing to 3, not 4 — no `sum(owned) == n_nod` check exists.  Moreover
dof 1 is touched by task 1 (it lies on the shared facet claimed from
both sides) yet is silently skipped, not fatally reported, when already
owned by task 0. -/
theorem create_task_dof_maps_no_sum_check_cex :
    create_task_dof_maps [[0, 1], [1, 2]] [[], [1], []] [[0], [1]] 4 []
      [(0, [(1, [1])]), (1, [(0, [1])])] =
      some ([(0, ⟨some [0], [[1]], 2, 0⟩), (1, ⟨some [2], [], 1, 2⟩)],
        [0, 1, 2, 0], []) ∧
    sumOwned [(0, (⟨some [0], [[1]], 2, 0⟩ : DofMapEntry)),
      (1, ⟨some [2], [], 1, 2⟩)] = 3 ∧ (3 : Nat) ≠ 4 ∧
    (1 : Nat) ∈ taskDofs [[0, 1], [1, 2]] [[0], [1]] 1 ∧
    (1 : Nat) ∈ entryOwned (⟨some [0], [[1]], 2, 0⟩ : DofMapEntry) ∧
    (1 : Nat) ∉ entryOwned (⟨some [2], [], 1, 2⟩ : DofMapEntry) := by
  exact ⟨rfl, by decide, by decide, by decide, by decide, by decide⟩

/-- C5 (amended): whenever `create_task_dof_maps` returns, no dof is
claimed by two tasks — an already-claimed dof touched again is skipped,
an already-claimed inner dof is a fatal assert — so the owned lists are
duplicate-free, every owned dof is a valid mesh dof, each task's owned
count is honest, and the owned counts sum to the number of distinct
claimed dofs, which is at most (not necessarily equal to) the total
number of mesh dofs. -/
theorem create_task_dof_maps_claim_accounting
    (econn facet_dofs cell_parts : List (List Nat)) (n_nod : Nat)
    (regions0 : List String) (inter_facets : List (Nat × List (Nat × List Nat)))
    (dms : List (Nat × DofMapEntry)) (idMap : List Nat) (regs : List String)
    (hkeys : (inter_facets.map Prod.fst).Nodup)
    (hbE : ∀ row ∈ econn, ∀ d ∈ row, d < n_nod)
    (hbF : ∀ row ∈ facet_dofs, ∀ d ∈ row, d < n_nod)
    (hrun : create_task_dof_maps econn facet_dofs cell_parts n_nod regions0
      inter_facets = some (dms, idMap, regs)) :
    (allOwned dms).Nodup ∧
    (∀ d ∈ allOwned dms, d < n_nod) ∧
    (∀ p ∈ dms, p.2.nOwned = (entryOwned p.2).length) ∧
    sumOwned dms = (allOwned dms).length ∧
    sumOwned dms ≤ n_nod := by
  rw [create_task_dof_maps] at hrun
  cases hcp : claimPhase econn facet_dofs cell_parts n_nod regions0 inter_facets with
  | none => rw [hcp] at hrun; exact absurd hrun (by simp)
  | some straux =>
    obtain ⟨st, regsC⟩ := straux
    rw [hcp] at hrun
    cases hnf : (ordered_items st.dofMaps).foldlM numberTask
        (st.dofMaps, st.idMap, 0) with
    | none => simp only [hnf] at hrun; exact absurd hrun (by simp)
    | some out =>
      obtain ⟨dmsO, idMapO, offO⟩ := out
      simp only [hnf] at hrun
      injection hrun with hrun
      injection hrun with hdms hrun
      injection hrun with hidm hregs
      subst hdms
      subst hidm
      obtain ⟨hinv, hregsC, hclaimed⟩ := claimPhase_spec hbE hbF hkeys hcp
      obtain ⟨hIdLen, hvals, hcount, hbook, hknd⟩ := hinv
      have hflag' : ∀ d, st.idMap.getD d 0 = 1 → d < n_nod := by
        intro d h1
        by_contra hge
        rw [getD_oob (by omega)] at h1
        exact absurd h1 (by omega)
      have hNodupOwned : (allOwned st.dofMaps).Nodup := by
        rw [List.nodup_iff_count_le_one]
        intro a
        rw [hcount a]
        split <;> omega
      have hltOwned : ∀ d ∈ allOwned st.dofMaps, d < n_nod := by
        intro d hd
        have := hcount d
        rw [count_nodup hNodupOwned, if_pos hd] at this
        split at this
        · exact hflag' d (by assumption)
        · exact absurd this (by omega)
      have hpermL : (allOwned (ordered_items st.dofMaps)).Perm
          (allOwned st.dofMaps) := by
        have hm : (List.map (fun p => entryOwned p.2)
            (ordered_items st.dofMaps)).Perm
            (List.map (fun p => entryOwned p.2) st.dofMaps) :=
          (ordered_items_perm st.dofMaps).map (fun p => entryOwned p.2)
        exact hm.flatten
      have hndL : (allOwned (ordered_items st.dofMaps)).Nodup :=
        hpermL.nodup_iff.2 hNodupOwned
      have hltL : ∀ x ∈ allOwned (ordered_items st.dofMaps), x < st.idMap.length := by
        intro x hx
        rw [hIdLen]
        exact hltOwned x (hpermL.mem_iff.1 hx)
      have hkndL : ((ordered_items st.dofMaps).map Prod.fst).Nodup :=
        (((ordered_items_perm st.dofMaps).map Prod.fst).nodup_iff).2 hknd
      have hlookL : ∀ p ∈ ordered_items st.dofMaps,
          st.dofMaps.lookup p.1 = some p.2 := by
        intro p hp
        exact lookup_eq_some_of_mem hknd
          ((ordered_items_perm st.dofMaps).mem_iff.1 hp)
      obtain ⟨nf1, nf2, nf3, nf4, nf5, nf6, nf7, nf8⟩ :=
        numberFold_spec (ordered_items st.dofMaps) st.dofMaps st.idMap 0
          (dmsO, idMapO, offO) hndL hltL hkndL hlookL hnf
      have hkndO : (alKeys dmsO).Nodup := by rw [nf4]; exact hknd
      have hbookO : ∀ p ∈ dmsO, p.2.nOwned = (entryOwned p.2).length := by
        intro p hp
        have hlkp : dmsO.lookup p.1 = some p.2 := lookup_eq_some_of_mem hkndO hp
        have hkey : p.1 ∈ alKeys st.dofMaps := by
          rw [← nf4]
          exact List.mem_map.2 ⟨p, hp, rfl⟩
        have hkeyL : p.1 ∈ (ordered_items st.dofMaps).map Prod.fst := by
          rcases List.mem_map.1 hkey with ⟨q, hq, hq1⟩
          exact List.mem_map.2 ⟨q, (ordered_items_perm st.dofMaps).mem_iff.2 hq, hq1⟩
        obtain ⟨q, hqL, hq1⟩ := List.mem_map.1 hkeyL
        obtain ⟨pre, post, hsplit⟩ := List.append_of_mem hqL
        obtain ⟨hlk, _⟩ := nf6 pre q post hsplit
        rw [hq1] at hlk
        rw [hlkp] at hlk
        injection hlk with hlk
        have hq2 : p.2 = { q.2 with offset := 0 + sumOwned pre } := hlk
        have hqb : q.2.nOwned = (entryOwned q.2).length :=
          (hbook q ((ordered_items_perm st.dofMaps).mem_iff.1 hqL)).1
        rw [hq2]
        exact hqb
      have hsum : sumOwned dmsO = (allOwned dmsO).length := by
        rw [allOwned, List.length_flatten, List.map_map, sumOwned]
        refine congrArg List.sum (List.map_congr_left ?_)
        intro p hp
        exact hbookO p hp
      have hndO : (allOwned dmsO).Nodup := by rw [nf8]; exact hNodupOwned
      have hltO : ∀ d ∈ allOwned dmsO, d < n_nod := by
        intro d hd
        rw [nf8] at hd
        exact hltOwned d hd
      refine ⟨hndO, hltO, hbookO, hsum, ?_⟩
      rw [hsum]
      have hsub : allOwned dmsO ⊆ List.range n_nod := by
        intro d hd
        exact List.mem_range.2 (hltO d hd)
      have := (hndO.subperm hsub).length_le
      simpa using this

/-- Witness for C5 on the connected 2-cell mesh with 3 dofs. -/
theorem create_task_dof_maps_claim_accounting_witness :
    (allOwned [(0, (⟨some [0], [[1]], 2, 0⟩ : DofMapEntry)),
      (1, ⟨some [2], [], 1, 2⟩)]).Nodup ∧
    (∀ d ∈ allOwned [(0, (⟨some [0], [[1]], 2, 0⟩ : DofMapEntry)),
      (1, ⟨some [2], [], 1, 2⟩)], d < 3) ∧
    (∀ p ∈ [(0, (⟨some [0], [[1]], 2, 0⟩ : DofMapEntry)),
      (1, ⟨some [2], [], 1, 2⟩)], p.2.nOwned = (entryOwned p.2).length) ∧
    sumOwned [(0, (⟨some [0], [[1]], 2, 0⟩ : DofMapEntry)),
      (1, ⟨some [2], [], 1, 2⟩)] =
      (allOwned [(0, (⟨some [0], [[1]], 2, 0⟩ : DofMapEntry)),
        (1, ⟨some [2], [], 1, 2⟩)]).length ∧
    sumOwned [(0, (⟨some [0], [[1]], 2, 0⟩ : DofMapEntry)),
      (1, ⟨some [2], [], 1, 2⟩)] ≤ 3 :=
  create_task_dof_maps_claim_accounting [[0, 1], [1, 2]] [[], [1], []]
    [[0], [1]] 3 [] [(0, [(1, [1])]), (1, [(0, [1])])]
    [(0, ⟨some [0], [[1]], 2, 0⟩), (1, ⟨some [2], [], 1, 2⟩)] [0, 1, 2] []
    (by decide) (by decide) (by decide) rfl

/-! ## C2: the claim phase implements the spec's half-split in sorted order

The simulation relation carried below: the spec-side ClaimTable holds
`true` exactly where the code's `id_map` bitmap is nonzero, and for every
task the spec-side owned-interface blocks equal the `blocks` field of the
code's DOF-map entry. -/

theorem length_setTrue (c : List Bool) (ds : List Nat) :
    (ds.foldl (fun c d => c.set d true) c).length = c.length := by
  induction ds generalizing c with
  | nil => rfl
  | cons d ds ih =>
    show (ds.foldl _ (c.set d true)).length = _
    rw [ih, List.length_set]

/-- The effect of the spec's `claimed[ds] = true` on a single position. -/
theorem getD_setTrue (c : List Bool) (ds : List Nat) (x : Nat) :
    (ds.foldl (fun c d => c.set d true) c).getD x false =
      if x ∈ ds ∧ x < c.length then true else c.getD x false := by
  induction ds generalizing c with
  | nil => simp
  | cons d ds ih =>
    show (ds.foldl _ (c.set d true)).getD x false = _
    rw [ih]
    by_cases hxd : x = d
    · subst hxd
      rw [List.length_set]
      by_cases hx : x < c.length
      · by_cases hmem : x ∈ ds <;> simp [hmem, hx, getD_set_self' (by simpa : x < c.length)]
      · rw [getD_set_oob' (le_of_not_lt hx)]
        by_cases hmem : x ∈ ds <;> simp [hmem, hx]
    · rw [getD_set_ne' (Ne.symm hxd), List.length_set]
      simp [List.mem_cons, hxd]

/-- One `claimHalf` call against the spec's one-half claim step. -/
theorem claimHalf_sim (k : Nat) (st : ClaimState) (half : List (List Nat))
    (s s' : SpecOwnership) (new : List Nat)
    (hk : k ∈ alKeys st.dofMaps)
    (hlen : s.claimed.length = st.idMap.length)
    (hbit : ∀ d, s.claimed.getD d false = !(st.idMap.getD d 0 == 0))
    (hblk : ∀ t, (alGetD st.dofMaps t initEntry).blocks = s.inter t)
    (hnew : new = (uniq half.flatten).filter (fun d => !(s.claimed.getD d false)))
    (hs' : s' = if new.isEmpty then s else
      ⟨new.foldl (fun c d => c.set d true) s.claimed,
       fun u => if u = k then s.inter k ++ [new] else s.inter u⟩) :
    s'.claimed.length = (claimHalf k st half).idMap.length ∧
    (∀ d, s'.claimed.getD d false = !((claimHalf k st half).idMap.getD d 0 == 0)) ∧
    (∀ t, (alGetD (claimHalf k st half).dofMaps t initEntry).blocks = s'.inter t) ∧
    alKeys (claimHalf k st half).dofMaps = alKeys st.dofMaps := by
  have hfe : new = (uniq half.flatten).filter (fun d => st.idMap.getD d 0 == 0) := by
    rw [hnew]
    refine List.filter_congr ?_
    intro d _
    rw [hbit d, Bool.not_not]
  have hcode : claimHalf k st half =
      if ((uniq half.flatten).filter (fun d => st.idMap.getD d 0 == 0)).isEmpty then st
      else { st with
        dofMaps := alUpdate st.dofMaps k (fun e =>
          addBlock e ((uniq half.flatten).filter (fun d => st.idMap.getD d 0 == 0))),
        idMap := markClaimed st.idMap
          ((uniq half.flatten).filter (fun d => st.idMap.getD d 0 == 0)),
        interCount := st.interCount +
          ((uniq half.flatten).filter (fun d => st.idMap.getD d 0 == 0)).length,
        count := st.count +
          ((uniq half.flatten).filter (fun d => st.idMap.getD d 0 == 0)).length } := rfl
  rw [← hfe] at hcode
  by_cases hemp : new.isEmpty
  · rw [if_pos hemp] at hcode
    rw [hcode, hs', if_pos hemp]
    exact ⟨hlen, hbit, hblk, rfl⟩
  · rw [if_neg hemp] at hcode
    rw [hcode, hs', if_neg hemp]
    refine ⟨?_, ?_, ?_, ?_⟩
    · show (new.foldl (fun c d => c.set d true) s.claimed).length =
        (markClaimed st.idMap new).length
      rw [length_setTrue, length_markClaimed, hlen]
    · intro d
      show (new.foldl (fun c d => c.set d true) s.claimed).getD d false =
        !((markClaimed st.idMap new).getD d 0 == 0)
      rw [getD_setTrue, getD_markClaimed, hlen]
      by_cases hd : d ∈ new ∧ d < st.idMap.length
      · rw [if_pos hd, if_pos hd]
        rfl
      · rw [if_neg hd, if_neg hd]
        exact hbit d
    · intro t
      by_cases ht : t = k
      · subst ht
        show (alGetD (alUpdate st.dofMaps t (fun e => addBlock e new)) t initEntry).blocks =
          if t = t then s.inter t ++ [new] else s.inter t
        rw [if_pos rfl, alGetD_alUpdate_eq]
        have hsome : (st.dofMaps.lookup t).isSome :=
          (lookup_isSome_iff_mem_keys _ _).2 hk
        obtain ⟨e, he⟩ := Option.isSome_iff_exists.1 hsome
        rw [he]
        show (addBlock e new).blocks = s.inter t ++ [new]
        have hbe : (alGetD st.dofMaps t initEntry).blocks = s.inter t := hblk t
        rw [alGetD, he] at hbe
        show e.blocks ++ [new] = s.inter t ++ [new]
        rw [← hbe]
        rfl
      · show (alGetD (alUpdate st.dofMaps k (fun e => addBlock e new)) t initEntry).blocks =
          if t = k then s.inter k ++ [new] else s.inter t
        rw [if_neg ht,
          alGetD_alUpdate_ne st.dofMaps (fun e => addBlock e new) initEntry ht]
        exact hblk t
    · show alKeys (alUpdate st.dofMaps k (fun e => addBlock e new)) = alKeys st.dofMaps
      exact alKeys_alUpdate _ _ _

/-- One `processNeighbor` call against the spec's neighbor step: both
split the facet rows at `max(n_facet // 2, 1)` and claim the unclaimed
dofs of the first half for `ir`, of the second half for the neighbor. -/
theorem processNeighbor_sim (facet_dofs : List (List Nat)) (ir : Nat)
    (st : ClaimState) (p : Nat × List Nat) (s : SpecOwnership)
    (hir : ir ∈ alKeys st.dofMaps)
    (hlen : s.claimed.length = st.idMap.length)
    (hbit : ∀ d, s.claimed.getD d false = !(st.idMap.getD d 0 == 0))
    (hblk : ∀ t, (alGetD st.dofMaps t initEntry).blocks = s.inter t) :
    (specNeighborStep facet_dofs ir s p).claimed.length =
      (processNeighbor facet_dofs ir st p).1.idMap.length ∧
    (∀ d, (specNeighborStep facet_dofs ir s p).claimed.getD d false =
      !((processNeighbor facet_dofs ir st p).1.idMap.getD d 0 == 0)) ∧
    (∀ t, (alGetD (processNeighbor facet_dofs ir st p).1.dofMaps t initEntry).blocks =
      (specNeighborStep facet_dofs ir s p).inter t) ∧
    (∀ t, t ∈ alKeys st.dofMaps →
      t ∈ alKeys (processNeighbor facet_dofs ir st p).1.dofMaps) ∧
    ir ∈ alKeys (processNeighbor facet_dofs ir st p).1.dofMaps := by
  set econnS := p.2.map (fun f => facet_dofs.getD f []) with hE
  set ii2 := max (econnS.length / 2) 1 with hI
  set st0 : ClaimState :=
    ⟨st.idMap, alSetdefault st.dofMaps p.1 initEntry, st.count, st.interCount⟩ with hst0
  have hPN : (processNeighbor facet_dofs ir st p).1 =
      claimHalf p.1 (claimHalf ir st0 (econnS.take ii2)) (econnS.drop ii2) := rfl
  set new1 := (uniq (econnS.take ii2).flatten).filter
    (fun d => !(s.claimed.getD d false)) with hn1
  set s1 : SpecOwnership := if new1.isEmpty then s else
    ⟨new1.foldl (fun c d => c.set d true) s.claimed,
     fun u => if u = ir then s.inter ir ++ [new1] else s.inter u⟩ with hs1
  set new2 := (uniq (econnS.drop ii2).flatten).filter
    (fun d => !(s1.claimed.getD d false)) with hn2
  set s2 : SpecOwnership := if new2.isEmpty then s1 else
    ⟨new2.foldl (fun c d => c.set d true) s1.claimed,
     fun u => if u = p.1 then s1.inter p.1 ++ [new2] else s1.inter u⟩ with hs2
  have hSN : specNeighborStep facet_dofs ir s p = s2 := rfl
  have hblk0 : ∀ t, (alGetD st0.dofMaps t initEntry).blocks = s.inter t := by
    intro t
    show (alGetD (alSetdefault st.dofMaps p.1 initEntry) t initEntry).blocks = s.inter t
    rw [alGetD_alSetdefault]
    exact hblk t
  have hir0 : ir ∈ alKeys st0.dofMaps := mem_alKeys_alSetdefault p.1 initEntry hir
  obtain ⟨hlen1, hbit1, hblk1, hkeys1⟩ :=
    claimHalf_sim ir st0 (econnS.take ii2) s s1 new1 hir0 hlen hbit hblk0 hn1 hs1
  have hic1 : p.1 ∈ alKeys (claimHalf ir st0 (econnS.take ii2)).dofMaps := by
    rw [hkeys1]
    exact mem_keys_alSetdefault_self st.dofMaps p.1 initEntry
  obtain ⟨hlen2, hbit2, hblk2, hkeys2⟩ :=
    claimHalf_sim p.1 (claimHalf ir st0 (econnS.take ii2)) (econnS.drop ii2)
      s1 s2 new2 hic1 hlen1 hbit1 hblk1 hn2 hs2
  rw [hSN, hPN]
  refine ⟨hlen2, hbit2, hblk2, ?_, ?_⟩
  · intro t ht
    rw [hkeys2, hkeys1]
    exact mem_alKeys_alSetdefault p.1 initEntry ht
  · rw [hkeys2, hkeys1]
    exact hir0

/-- The neighbor fold of one task against the spec's neighbor fold, also
accumulating the per-interface region dofs. -/
theorem neighborFold_sim (facet_dofs : List (List Nat)) (ir : Nat) :
    ∀ (L : List (Nat × List Nat)) (st : ClaimState) (accD : List (List Nat))
      (s : SpecOwnership),
      ir ∈ alKeys st.dofMaps →
      s.claimed.length = st.idMap.length →
      (∀ d, s.claimed.getD d false = !(st.idMap.getD d 0 == 0)) →
      (∀ t, (alGetD st.dofMaps t initEntry).blocks = s.inter t) →
      (L.foldl (specNeighborStep facet_dofs ir) s).claimed.length =
        (L.foldl (fun a p =>
          let r := processNeighbor facet_dofs ir a.1 p
          (r.1, a.2 ++ [r.2])) (st, accD)).1.idMap.length ∧
      (∀ d, (L.foldl (specNeighborStep facet_dofs ir) s).claimed.getD d false =
        !((L.foldl (fun a p =>
          let r := processNeighbor facet_dofs ir a.1 p
          (r.1, a.2 ++ [r.2])) (st, accD)).1.idMap.getD d 0 == 0)) ∧
      (∀ t, (alGetD (L.foldl (fun a p =>
          let r := processNeighbor facet_dofs ir a.1 p
          (r.1, a.2 ++ [r.2])) (st, accD)).1.dofMaps t initEntry).blocks =
        (L.foldl (specNeighborStep facet_dofs ir) s).inter t) ∧
      (∀ t, t ∈ alKeys st.dofMaps →
        t ∈ alKeys (L.foldl (fun a p =>
          let r := processNeighbor facet_dofs ir a.1 p
          (r.1, a.2 ++ [r.2])) (st, accD)).1.dofMaps) ∧
      (L.foldl (fun a p =>
          let r := processNeighbor facet_dofs ir a.1 p
          (r.1, a.2 ++ [r.2])) (st, accD)).2 =
        accD ++ L.map (fun p =>
          uniq ((p.2.map (fun f => facet_dofs.getD f [])).flatten)) := by
  intro L
  induction L with
  | nil =>
    intro st accD s _ hlen hbit hblk
    exact ⟨hlen, hbit, hblk, fun t ht => ht, by simp⟩
  | cons p L ih =>
    intro st accD s hir hlen hbit hblk
    obtain ⟨hlen1, hbit1, hblk1, hkeys1, hir1⟩ :=
      processNeighbor_sim facet_dofs ir st p s hir hlen hbit hblk
    obtain ⟨iLen, iBit, iBlk, iKeys, iAcc⟩ :=
      ih (processNeighbor facet_dofs ir st p).1
        (accD ++ [(processNeighbor facet_dofs ir st p).2])
        (specNeighborStep facet_dofs ir s p) hir1 hlen1 hbit1 hblk1
    simp only [List.foldl_cons]
    refine ⟨iLen, iBit, iBlk, fun t ht => iKeys t (hkeys1 t ht), ?_⟩
    rw [List.map_cons]
    simp only [List.append_assoc, List.singleton_append] at iAcc
    exact iAcc

/-- One successful `processTask` call against the spec's task step (the
spec sees the task's neighbor dict already sorted by key). -/
theorem processTask_sim (econn facet_dofs cell_parts : List (List Nat))
    (acc : ClaimState × List String) (pr : Nat × List (Nat × List Nat))
    (out : ClaimState × List String) (s : SpecOwnership)
    (hrun : processTask econn facet_dofs cell_parts acc pr = some out)
    (hlen : s.claimed.length = acc.1.idMap.length)
    (hbit : ∀ d, s.claimed.getD d false = !(acc.1.idMap.getD d 0 == 0))
    (hblk : ∀ t, (alGetD acc.1.dofMaps t initEntry).blocks = s.inter t) :
    (specTaskStep econn facet_dofs cell_parts s (pr.1, ordered_items pr.2)).claimed.length =
      out.1.idMap.length ∧
    (∀ d, (specTaskStep econn facet_dofs cell_parts s
      (pr.1, ordered_items pr.2)).claimed.getD d false =
      !(out.1.idMap.getD d 0 == 0)) ∧
    (∀ t, (alGetD out.1.dofMaps t initEntry).blocks =
      (specTaskStep econn facet_dofs cell_parts s (pr.1, ordered_items pr.2)).inter t) ∧
    (∀ t, t ∈ alKeys acc.1.dofMaps → t ∈ alKeys out.1.dofMaps) := by
  set st0 : ClaimState :=
    ⟨acc.1.idMap, alSetdefault acc.1.dofMaps pr.1 initEntry,
     acc.1.count, acc.1.interCount⟩ with hst0
  set F := (ordered_items pr.2).foldl
    (fun (a : ClaimState × List (List Nat)) p =>
      let r := processNeighbor facet_dofs pr.1 a.1 p
      (r.1, a.2 ++ [r.2])) (st0, []) with hF
  set innerDofs := setdiff (taskDofs econn cell_parts pr.1) F.2.flatten with hInner
  have heq : processTask econn facet_dofs cell_parts acc pr =
      (if innerDofs.all (fun d => F.1.idMap.getD d 0 == 0) then
        some (⟨markClaimed F.1.idMap innerDofs,
               alUpdate F.1.dofMaps pr.1 (fun e =>
                 { e with inner := some innerDofs,
                          nOwned := e.nOwned + innerDofs.length }),
               F.1.count + innerDofs.length, F.1.interCount⟩,
              (acc.2 ++ ["task_" ++ toString pr.1]).dropLast)
      else none) := rfl
  rw [heq] at hrun
  split at hrun
  case isFalse => exact absurd hrun (by simp)
  case isTrue hall =>
    have hout : _ = out := Option.some_inj.1 hrun
    set sN := (ordered_items pr.2).foldl (specNeighborStep facet_dofs pr.1) s with hsN
    set touched := ((ordered_items pr.2).map (fun p =>
      uniq ((p.2.map (fun f => facet_dofs.getD f [])).flatten))).flatten with hT
    set specInner := setdiff (taskDofs econn cell_parts pr.1) touched with hSI
    have hST : specTaskStep econn facet_dofs cell_parts s (pr.1, ordered_items pr.2) =
        ⟨specInner.foldl (fun c d => c.set d true) sN.claimed, sN.inter⟩ := rfl
    have hblk0 : ∀ t, (alGetD st0.dofMaps t initEntry).blocks = s.inter t := by
      intro t
      show (alGetD (alSetdefault acc.1.dofMaps pr.1 initEntry) t initEntry).blocks =
        s.inter t
      rw [alGetD_alSetdefault]
      exact hblk t
    have hir0 : pr.1 ∈ alKeys st0.dofMaps :=
      mem_keys_alSetdefault_self acc.1.dofMaps pr.1 initEntry
    obtain ⟨nLen, nBit, nBlk, nKeys, nAcc⟩ :=
      neighborFold_sim facet_dofs pr.1 (ordered_items pr.2) st0 [] s hir0 hlen hbit hblk0
    rw [← hF] at nLen nBit nBlk nKeys nAcc
    rw [← hsN] at nLen nBit nBlk
    have hII : innerDofs = specInner := by
      rw [hInner, hSI]
      rw [nAcc, List.nil_append, hT]
    rw [hST, ← hout]
    refine ⟨?_, ?_, ?_, ?_⟩
    · show (specInner.foldl (fun c d => c.set d true) sN.claimed).length =
        (markClaimed F.1.idMap innerDofs).length
      rw [length_setTrue, length_markClaimed]
      exact nLen
    · intro d
      show (specInner.foldl (fun c d => c.set d true) sN.claimed).getD d false =
        !((markClaimed F.1.idMap innerDofs).getD d 0 == 0)
      rw [getD_setTrue, getD_markClaimed, hII, nLen]
      by_cases hd : d ∈ specInner ∧ d < F.1.idMap.length
      · rw [if_pos hd, if_pos hd]
        rfl
      · rw [if_neg hd, if_neg hd]
        exact nBit d
    · intro t
      show (alGetD (alUpdate F.1.dofMaps pr.1 (fun e =>
        { e with inner := some innerDofs,
                 nOwned := e.nOwned + innerDofs.length })) t initEntry).blocks =
        sN.inter t
      by_cases ht : t = pr.1
      · rw [ht, alGetD_alUpdate_eq]
        have hsome : (F.1.dofMaps.lookup pr.1).isSome :=
          (lookup_isSome_iff_mem_keys _ _).2 (nKeys pr.1 hir0)
        obtain ⟨e, he⟩ := Option.isSome_iff_exists.1 hsome
        rw [he]
        have hbe : (alGetD F.1.dofMaps pr.1 initEntry).blocks = sN.inter pr.1 :=
          nBlk pr.1
        rw [alGetD, he] at hbe
        exact hbe
      · rw [alGetD_alUpdate_ne F.1.dofMaps (fun e =>
          { e with inner := some innerDofs,
                   nOwned := e.nOwned + innerDofs.length }) initEntry ht]
        exact nBlk t
    · intro t ht
      show t ∈ alKeys (alUpdate F.1.dofMaps pr.1 (fun e =>
        { e with inner := some innerDofs,
                 nOwned := e.nOwned + innerDofs.length }))
      rw [alKeys_alUpdate]
      exact nKeys t (mem_alKeys_alSetdefault pr.1 initEntry ht)

/-- The task fold of the claim phase against the spec's ownership fold
over the flattened, key-sorted task list. -/
theorem taskFold_sim (econn facet_dofs cell_parts : List (List Nat)) :
    ∀ (L : List (Nat × List (Nat × List Nat))) (acc : ClaimState × List String)
      (out : ClaimState × List String) (s : SpecOwnership),
      L.foldlM (processTask econn facet_dofs cell_parts) acc = some out →
      s.claimed.length = acc.1.idMap.length →
      (∀ d, s.claimed.getD d false = !(acc.1.idMap.getD d 0 == 0)) →
      (∀ t, (alGetD acc.1.dofMaps t initEntry).blocks = s.inter t) →
      (∀ t, (alGetD out.1.dofMaps t initEntry).blocks =
        ((L.map (fun p => (p.1, ordered_items p.2))).foldl
          (specTaskStep econn facet_dofs cell_parts) s).inter t) := by
  intro L
  induction L with
  | nil =>
    intro acc out s hrun _ _ hblk
    injection hrun with hrun
    subst hrun
    exact hblk
  | cons pr L ih =>
    intro acc out s hrun hlen hbit hblk
    rw [List.foldlM_cons] at hrun
    obtain ⟨mid, hmid, hrest⟩ := Option.bind_eq_some.1 hrun
    obtain ⟨pLen, pBit, pBlk, _⟩ :=
      processTask_sim econn facet_dofs cell_parts acc pr mid s hmid hlen hbit hblk
    have := ih mid out
      (specTaskStep econn facet_dofs cell_parts s (pr.1, ordered_items pr.2))
      hrest pLen pBit pBlk
    rw [List.map_cons, List.foldl_cons]
    exact this

theorem sorted_keys_insKey {α : Type} (p : Nat × α) (l : List (Nat × α))
    (h : ((l.map Prod.fst).Sorted (· ≤ ·))) :
    (((insKey p l).map Prod.fst).Sorted (· ≤ ·)) := by
  induction l with
  | nil => simp [insKey]
  | cons q l ih =>
    rw [insKey]
    by_cases hle : p.1 ≤ q.1
    · rw [if_pos hle, List.map_cons]
      rw [List.sorted_cons]
      refine ⟨?_, h⟩
      intro b hb
      rw [List.map_cons] at h hb
      rcases List.mem_cons.1 hb with rfl | hb
      · exact hle
      · exact le_trans hle ((List.sorted_cons.1 h).1 b hb)
    · rw [if_neg hle, List.map_cons]
      rw [List.map_cons, List.sorted_cons] at h
      rw [List.sorted_cons]
      refine ⟨?_, ih h.2⟩
      intro b hb
      have hb' : b ∈ (p :: l).map Prod.fst :=
        ((insKey_perm p l).map Prod.fst).mem_iff.1 hb
      rw [List.map_cons] at hb'
      rcases List.mem_cons.1 hb' with rfl | hb'
      · exact le_of_lt (lt_of_not_le hle)
      · exact h.1 b hb'

/-- `ordered_iteritems` iterates the dict keys in ascending order. -/
theorem sorted_keys_ordered_items {α : Type} (m : List (Nat × α)) :
    ((ordered_items m).map Prod.fst).Sorted (· ≤ ·) := by
  induction m with
  | nil => simp [ordered_items]
  | cons p m ih =>
    show (((insKey p (ordered_items m)).map Prod.fst).Sorted (· ≤ ·))
    exact sorted_keys_insKey p _ ih

/-- On distinct keys (a Python dict) the iteration order is strictly
increasing. -/
theorem sorted_lt_keys_ordered_items {α : Type} (m : List (Nat × α))
    (hnd : (m.map Prod.fst).Nodup) :
    ((ordered_items m).map Prod.fst).Sorted (· < ·) := by
  have hs := sorted_keys_ordered_items m
  have hnd' : ((ordered_items m).map Prod.fst).Nodup :=
    (((ordered_items_perm m).map Prod.fst).nodup_iff).2 hnd
  exact List.Pairwise.imp₂ (fun a b h1 h2 => lt_of_le_of_ne h1 h2) hs hnd'

/-- C2: `create_task_dof_maps` processes the tasks, and each task's
neighbors, in strictly increasing id order, and its owned-interface
blocks are exactly those of the spec-side construction that splits every
shared facet list at `max(n_facet // 2, 1)` into two contiguous halves,
claiming the still-unclaimed dofs of the first half for the processed
task and those of the second half for the neighbor — a deterministic
function of the inputs. -/
theorem create_task_dof_maps_follows_spec_split
    (econn facet_dofs cell_parts : List (List Nat)) (n_nod : Nat)
    (regions0 : List String) (inter_facets : List (Nat × List (Nat × List Nat)))
    (dms : List (Nat × DofMapEntry)) (idMap : List Nat) (regs : List String)
    (hkeys : (inter_facets.map Prod.fst).Nodup)
    (hkeys2 : ∀ pr ∈ inter_facets, (pr.2.map Prod.fst).Nodup)
    (hbE : ∀ row ∈ econn, ∀ d ∈ row, d < n_nod)
    (hbF : ∀ row ∈ facet_dofs, ∀ d ∈ row, d < n_nod)
    (hrun : create_task_dof_maps econn facet_dofs cell_parts n_nod regions0
      inter_facets = some (dms, idMap, regs)) :
    ((ordered_items inter_facets).map Prod.fst).Sorted (· < ·) ∧
    (∀ pr ∈ sortedPairs inter_facets, (pr.2.map Prod.fst).Sorted (· < ·)) ∧
    (∀ t, (alGetD dms t initEntry).blocks =
      (specOwnership econn facet_dofs cell_parts n_nod
        (sortedPairs inter_facets)).inter t) := by
  refine ⟨sorted_lt_keys_ordered_items inter_facets hkeys, ?_, ?_⟩
  · intro pr hpr
    rw [sortedPairs] at hpr
    obtain ⟨q, hq, rfl⟩ := List.mem_map.1 hpr
    exact sorted_lt_keys_ordered_items q.2
      (hkeys2 q ((ordered_items_perm inter_facets).mem_iff.1 hq))
  · rw [create_task_dof_maps] at hrun
    cases hcp : claimPhase econn facet_dofs cell_parts n_nod regions0 inter_facets with
    | none => rw [hcp] at hrun; exact absurd hrun (by simp)
    | some straux =>
      obtain ⟨st, regsC⟩ := straux
      rw [hcp] at hrun
      cases hnf : (ordered_items st.dofMaps).foldlM numberTask
          (st.dofMaps, st.idMap, 0) with
      | none => simp only [hnf] at hrun; exact absurd hrun (by simp)
      | some out =>
        obtain ⟨dmsO, idMapO, offO⟩ := out
        simp only [hnf] at hrun
        injection hrun with hrun
        injection hrun with hdms hrun
        injection hrun with hidm hregs
        subst hdms
        subst hidm
        obtain ⟨hinv, hregsC, hclaimed⟩ := claimPhase_spec hbE hbF hkeys hcp
        obtain ⟨hIdLen, hvals, hcount, hbook, hknd⟩ := hinv
        rw [claimPhase] at hcp
        have hsim := taskFold_sim econn facet_dofs cell_parts
          (ordered_items inter_facets)
          (⟨List.replicate n_nod 0, [], 0, 0⟩, regions0) (st, regsC)
          ⟨List.replicate n_nod false, fun _ => []⟩ hcp
          (by simp)
          (by
            intro d
            show (List.replicate n_nod false).getD d false =
              !((List.replicate n_nod 0).getD d 0 == 0)
            rw [getD_replicate_zero]
            by_cases hd : d < n_nod
            · rw [List.getD_eq_getElem _ _ (by simpa), List.getElem_replicate]
              rfl
            · rw [List.getD_eq_getElem?_getD,
                List.getElem?_eq_none (by simpa using le_of_not_lt hd)]
              rfl)
          (fun t => rfl)
        have hNodupOwned : (allOwned st.dofMaps).Nodup := by
          rw [List.nodup_iff_count_le_one]
          intro a
          rw [hcount a]
          split <;> omega
        have hltOwned : ∀ d ∈ allOwned st.dofMaps, d < n_nod := by
          intro d hd
          have hc := hcount d
          rw [count_nodup hNodupOwned, if_pos hd] at hc
          split at hc
          · rename_i h1
            by_contra hge
            rw [getD_oob (by omega)] at h1
            exact absurd h1 (by omega)
          · exact absurd hc (by omega)
        have hpermL : (allOwned (ordered_items st.dofMaps)).Perm
            (allOwned st.dofMaps) := by
          have hm : (List.map (fun p => entryOwned p.2)
              (ordered_items st.dofMaps)).Perm
              (List.map (fun p => entryOwned p.2) st.dofMaps) :=
            (ordered_items_perm st.dofMaps).map (fun p => entryOwned p.2)
          exact hm.flatten
        have hndL : (allOwned (ordered_items st.dofMaps)).Nodup :=
          hpermL.nodup_iff.2 hNodupOwned
        have hltL : ∀ x ∈ allOwned (ordered_items st.dofMaps),
            x < st.idMap.length := by
          intro x hx
          rw [hIdLen]
          exact hltOwned x (hpermL.mem_iff.1 hx)
        have hkndL : ((ordered_items st.dofMaps).map Prod.fst).Nodup :=
          (((ordered_items_perm st.dofMaps).map Prod.fst).nodup_iff).2 hknd
        have hlookL : ∀ p ∈ ordered_items st.dofMaps,
            st.dofMaps.lookup p.1 = some p.2 := by
          intro p hp
          exact lookup_eq_some_of_mem hknd
            ((ordered_items_perm st.dofMaps).mem_iff.1 hp)
        obtain ⟨nf1, nf2, nf3, nf4, nf5, nf6, nf7, nf8⟩ :=
          numberFold_spec (ordered_items st.dofMaps) st.dofMaps st.idMap 0
            (dmsO, idMapO, offO) hndL hltL hkndL hlookL hnf
        intro t
        have hpres : (alGetD dmsO t initEntry).blocks =
            (alGetD st.dofMaps t initEntry).blocks := by
          by_cases htk : t ∈ (ordered_items st.dofMaps).map Prod.fst
          · obtain ⟨q, hqL, hq1⟩ := List.mem_map.1 htk
            obtain ⟨pre, post, hsplit⟩ := List.append_of_mem hqL
            obtain ⟨hlk, _⟩ := nf6 pre q post hsplit
            have hlkS : List.lookup q.1 st.dofMaps = some q.2 := hlookL q hqL
            rw [← hq1, alGetD, alGetD, hlk, hlkS]
            rfl
          · rw [alGetD, alGetD, nf5 t htk]
        rw [hpres]
        exact hsim t

/-- Witness for C2 on the connected 2-cell mesh. -/
theorem create_task_dof_maps_follows_spec_split_witness :
    ((ordered_items [(0, [(1, [1])]), (1, [(0, [1])])]).map Prod.fst).Sorted (· < ·) ∧
    (∀ pr ∈ sortedPairs [(0, [(1, [1])]), (1, [(0, [1])])],
      (pr.2.map Prod.fst).Sorted (· < ·)) ∧
    (∀ t, (alGetD [(0, (⟨some [0], [[1]], 2, 0⟩ : DofMapEntry)),
        (1, ⟨some [2], [], 1, 2⟩)] t initEntry).blocks =
      (specOwnership [[0, 1], [1, 2]] [[], [1], []] [[0], [1]] 3
        (sortedPairs [(0, [(1, [1])]), (1, [(0, [1])])])).inter t) :=
  create_task_dof_maps_follows_spec_split [[0, 1], [1, 2]] [[], [1], []]
    [[0], [1]] 3 [] [(0, [(1, [1])]), (1, [(0, [1])])]
    [(0, ⟨some [0], [[1]], 2, 0⟩), (1, ⟨some [2], [], 1, 2⟩)] [0, 1, 2] []
    (by decide) (by decide) (by decide) (by decide) rfl

end Sfepy

